import Mathlib

/-!
# Verification of `Matching/matching.py`

This file gives a shallow embedding of the matching-generation module
(`disjoint_matchings` and its helpers, plus the `test` verifier) and proves
the specified properties about it.

Python integers are modelled as `ℤ`.  Python's `%` and `//` on integers
coincide with Lean's `Int.emod` / `Int.ediv` at every call site occurring in
the source (each `%` and `//` in the source has a positive right operand, or
is only reached with one).  Python's float division `n / 2` inside
`_two_factors`, and the comparison `i == n / 2`, are only evaluated with
`n` even, where the quotient is exact, so they are modelled by exact integer
division.  A generator is modelled by the finite list of the values it
yields; a raised exception is modelled with `Except.error` carrying the
message.
-/

/-- Python `range(a, b)` (step 1) as a list of integers. -/
def pyRange (a b : ℤ) : List ℤ :=
  (List.range (b - a).toNat).map (fun j : ℕ => a + (j : ℤ))

/-- Python `range(a, b, step)` for a positive `step`, as a list of integers.
The element count is `max 0 (ceil((b - a) / step))`. -/
def pyRangeStep (a b step : ℤ) : List ℤ :=
  (List.range ((b - a + step - 1) / step).toNat).map (fun j : ℕ => a + (j : ℤ) * step)

/-- `_modulolist.__getitem__` (source lines 34-37): index access that first
reduces the index modulo the length.  After the reduction the index is in
range, so total `getD` access (default `0`) is faithful for nonempty lists. -/
def _modulolist_get (l : List ℤ) (item : ℤ) : ℤ :=
  l.getD ((item % (l.length : ℤ)).toNat) 0

/-- `_twice_an_odd_handling` (source lines 46-57): for a list of even length,
yield `len/2` matchings; the one at step `index` pairs `elements[index]` with
`elements[index + halflen]` and, for `ind` in `[1, halflen)`,
`elements[index + ind]` with `elements[index - ind]`, all indices circular.
The `assert len(elements) % 2 == 0` holds at every call site (each subgraph
fed to it has even length), so the function is modelled totally. -/
def _twice_an_odd_handling (elements : List ℤ) : List (List (ℤ × ℤ)) :=
  let halflen : ℕ := elements.length / 2
  (List.range halflen).map (fun index : ℕ =>
    (_modulolist_get elements (index : ℤ),
     _modulolist_get elements ((index : ℤ) + (halflen : ℤ))) ::
    (List.range (halflen - 1)).map (fun d : ℕ =>
      (_modulolist_get elements ((index : ℤ) + ((d : ℤ) + 1)),
       _modulolist_get elements ((index : ℤ) - ((d : ℤ) + 1)))))

/-- The `while n % 2 == 0` loop of `_two_factors` (source lines 61-68),
counting divisions by two.  The `n = 0` guard is only there to make the
recursion well-founded; the loop is never entered with `0` because
`_two_factors` raises on `0` first and halving an even nonzero integer
never yields `0`. -/
def twoFactorsGo (n : ℤ) : ℕ :=
  if n = 0 then 0
  else if n % 2 = 0 then twoFactorsGo (n / 2) + 1
  else 0
termination_by n.natAbs
decreasing_by simp_wf; omega

/-- `_two_factors` (source lines 61-68): raises `ValueError` on zero input,
otherwise returns the number of factors of two. -/
def _two_factors (n : ℤ) : Except String ℕ :=
  if n = 0 then .error "_two_factors input cannot be zero."
  else .ok (twoFactorsGo n)

/-- The matching built for one offset `i` in the main loop of
`disjoint_matchings` (source lines 83-95): for each residue `k` in
`range(gcd(n, i))` and each `j` in `range(0, n // gcd, 2)`, the pair
`((k + j*i) % n, (k + (j+1)*i) % n)`, accumulated with `extend`. -/
def matchingA (n i : ℤ) : List (ℤ × ℤ) :=
  let gcd : ℤ := Int.gcd n i
  (pyRange 0 gcd).flatMap (fun k =>
    (pyRangeStep 0 (n / gcd) 2).map (fun j =>
      ((k + j * i) % n, (k + (j + 1) * i) % n)))

/-- The subgraph list built at source lines 101-104:
`[i % n for i in range(subgraph_index, subgraph_index + n, reducedtwofactorpower)]`. -/
def subgraphList (n r s : ℤ) : List ℤ :=
  (pyRangeStep s (s + n) r).map (fun i => i % n)

/-- `zip(*subgraph_generators)` followed by
`itertools.chain.from_iterable` (source lines 105-106): truncate all
generators to the shortest length and concatenate the matchings yielded at
each step.  `zip` of no iterables yields nothing. -/
def lockstep (gens : List (List (List (ℤ × ℤ)))) : List (List (ℤ × ℤ)) :=
  match (gens.map List.length).min? with
  | none => []
  | some m => (List.range m).map (fun idx =>
      (gens.map (fun g => g.getD idx [])).flatten)

/-- `disjoint_matchings` (source lines 72-106), as the list of matchings the
generator yields, or the raised `ValueError` message. -/
def disjoint_matchings (n : ℤ) : Except String (List (List (ℤ × ℤ))) :=
  match _two_factors n with
  | .error e => .error e
  | .ok twofactor =>
    if twofactor = 0 then .error "The input number must be even."
    else
      let reducedtwofactorpower : ℤ := 2 ^ (twofactor - 1)
      let twofactorpower : ℤ := 2 * reducedtwofactorpower
      let regimeA : List (List (ℤ × ℤ)) :=
        ((pyRange 1 n).filter (fun i =>
          !(i % twofactorpower == 0) && !(i == n / 2))).map (matchingA n)
      let gens : List (List (List (ℤ × ℤ))) :=
        (pyRange 0 reducedtwofactorpower).map (fun s =>
          _twice_an_odd_handling (subgraphList n reducedtwofactorpower s))
      .ok (regimeA ++ lockstep gens)

/-- Resolution of a Python list index: negative indices count from the end. -/
def pyIdx (len : ℕ) (i : ℤ) : ℕ :=
  if i < 0 then (i + (len : ℤ)).toNat else i.toNat

/-- Python list subscript semantics for the verifier's `data` list:
in-range (possibly negative) indices succeed, others raise `IndexError`. -/
def pyListGet (data : List (Finset ℤ)) (i : ℤ) : Except String (Finset ℤ) :=
  if -(data.length : ℤ) ≤ i ∧ i < (data.length : ℤ) then
    .ok (data.getD (pyIdx data.length i) ∅)
  else .error "IndexError: list index out of range"

/-- The body of the verifier's inner loop (source lines 121-127): check that
neither endpoint already records the other, then add each endpoint to the
other's adjacency set (two separate in-place `add` calls, modelled as two
successive updates). -/
def checkAndAdd (data : List (Finset ℤ)) (p : ℤ × ℤ) :
    Except String (List (Finset ℤ)) :=
  match pyListGet data p.2 with
  | .error e => .error e
  | .ok s2 =>
    if p.1 ∈ s2 then .error (toString p.1 ++ " in " ++ toString p.2)
    else
      match pyListGet data p.1 with
      | .error e => .error e
      | .ok s1 =>
        if p.2 ∈ s1 then .error (toString p.2 ++ " in " ++ toString p.1)
        else
          let d1 := data.set (pyIdx data.length p.1) (insert p.2 s1)
          let s2' := d1.getD (pyIdx d1.length p.2) ∅
          .ok (d1.set (pyIdx d1.length p.2) (insert p.1 s2'))

/-- Verification of a single `n` inside `test` (source lines 119-131):
run the generator, accumulate adjacency sets with the duplicate check, then
check every vertex ends with exactly `n - 1` neighbours.  Any raised
exception propagates. -/
def verify_one (gen : ℤ → Except String (List (List (ℤ × ℤ)))) (n : ℤ) :
    Except String Unit :=
  match gen n with
  | .error e => .error e
  | .ok matchings =>
    let data0 : List (Finset ℤ) := List.replicate n.toNat ∅
    match matchings.foldlM (fun d mt => mt.foldlM checkAndAdd d) data0 with
    | .error e => .error e
    | .ok data =>
      data.enum.foldlM (fun _ p =>
        if (p.2.card : ℤ) ≠ n - 1 then
          .error ("Vertex " ++ toString p.1 ++ " has only " ++
                  toString p.2.card ++ " edges, expected " ++ toString (n - 1))
        else .ok ()) ()

/-- The range scan of `test` (source lines 112-135), parametrised by the
generator it consumes (`test` refers to the module-level, late-bound name
`disjoint_matchings`).  On success it returns the list of `n` values whose
"`{n}` vertices passed" line was printed; a raised exception propagates out
of the `for n in range(...)` loop, aborting the scan. -/
def testWith (gen : ℤ → Except String (List (List (ℤ × ℤ))))
    (min_test max_test : ℤ) : Except String (List ℤ) :=
  (pyRangeStep min_test max_test 2).foldlM (fun acc n =>
    match verify_one gen n with
    | .error e => .error e
    | .ok _ => .ok (acc ++ [n])) []

/-- `test(min_test, max_test)` with both arguments supplied (the sentinel
defaulting of source lines 113-117 only fills in missing arguments). -/
def test (min_test max_test : ℤ) : Except String (List ℤ) :=
  testWith disjoint_matchings min_test max_test

/-! ## Notions used to state the specified properties -/

/-- The endpoints of a list of pairs, each pair contributing both of its
components. -/
def pairEndpoints (l : List (ℤ × ℤ)) : List ℤ :=
  l.flatMap (fun p => [p.1, p.2])

/-- The unordered reading of a pair: its components sorted increasingly. -/
def normPair (p : ℤ × ℤ) : ℤ × ℤ :=
  (min p.1 p.2, max p.1 p.2)

/-- All `C(n,2)` unordered pairs of distinct vertices from `[0, n)`, each
exactly once, normalised as `(a, b)` with `a < b`. -/
def allPairs (n : ℤ) : List (ℤ × ℤ) :=
  (pyRange 0 n).flatMap (fun b => (pyRange 0 b).map (fun a => (a, b)))

/-- The 2-adic valuation, as the spec's glossary defines it: the exponent of
the highest power of 2 dividing the number. -/
def specV2 (n : ℤ) : ℕ :=
  n.natAbs.factorization 2

/-- The Regime-A matching for a kept offset `i`, written from the spec:
"let `g = gcd(n, i)`; for each residue `k` in `[0, g)` take the pairs
`(k + j*i mod n, k + (j+1)*i mod n)` for even `j` from 0 up to `n/g`
(step 2)"; the even `j` below is `2 * jj`. -/
def specOffsetMatching (n i : ℤ) : List (ℤ × ℤ) :=
  let g : ℤ := Int.gcd n i
  (pyRange 0 g).flatMap (fun k =>
    (List.range (((n / g).toNat + 1) / 2)).map (fun jj : ℕ =>
      ((k + (2 * (jj : ℤ)) * i) % n, (k + (2 * (jj : ℤ) + 1) * i) % n)))

/-- The Regime-A sequence, written from the spec: offsets `i` from 1 to
`n-1` in increasing order, skipping `i` when `i` is a multiple of
`2^v2(n)` or `i = n/2`. -/
def specRegimeA (n : ℤ) : List (List (ℤ × ℤ)) :=
  ((pyRange 1 n).filter (fun i =>
    decide (¬ ((2 : ℤ) ^ specV2 n ∣ i)) && decide (¬ (i = n / 2)))).map
    (specOffsetMatching n)

/-- Subgraph `s` of the Regime-B partition, written from the spec: with
`r = 2^(v2(n)-1)`, "subgraph `s` = vertices `s, s+r, s+2r, …`", of size
`n/r`. -/
def specSubgraph (n s : ℤ) : List ℤ :=
  let r : ℤ := 2 ^ (specV2 n - 1)
  (List.range ((n / r).toNat)).map (fun q : ℕ => s + (q : ℤ) * r)

/-- One rotation step of a subgraph, written from the spec: at step `idx`
the matching is the diametric pair `(elem[idx], elem[idx+halflen])` plus
the pairs `(elem[idx+d], elem[idx-d])` for `d` in `[1, halflen)`, with
circular indexing. -/
def specRotStep (elements : List ℤ) (idx : ℕ) : List (ℤ × ℤ) :=
  let halflen : ℕ := elements.length / 2
  (_modulolist_get elements (idx : ℤ),
   _modulolist_get elements ((idx : ℤ) + (halflen : ℤ))) ::
  (List.range (halflen - 1)).map (fun d : ℕ =>
    (_modulolist_get elements ((idx : ℤ) + ((d : ℤ) + 1)),
     _modulolist_get elements ((idx : ℤ) - ((d : ℤ) + 1))))

/-- The Regime-B sequence, written from the spec: run all `r` subgraphs'
rotation sequences in lock-step (same `idx` across all subgraphs) and
concatenate the per-subgraph matchings at each step; exactly `halflen`
whole-graph matchings, in increasing order of `idx`. -/
def specRegimeB (n : ℤ) : List (List (ℤ × ℤ)) :=
  let r : ℤ := 2 ^ (specV2 n - 1)
  let halflen : ℕ := (n / r).toNat / 2
  (List.range halflen).map (fun idx =>
    ((pyRange 0 r).map (fun s => specRotStep (specSubgraph n s) idx)).flatten)

/-- A deliberately faulty generator (it emits the pair `(0, 1)` twice) used
to exhibit how the `test` scan behaves when an invariant-violation error
occurs for some `n`. -/
def badGen : ℤ → Except String (List (List (ℤ × ℤ))) :=
  fun _ => .ok [[(0, 1)], [(0, 1)]]

/-! ## Basic facts about the embedded helpers -/

theorem twoFactorsGo_of_odd (n : ℤ) (h : ¬ (2 ∣ n)) : twoFactorsGo n = 0 := by
  have hne : n ≠ 0 := by rintro rfl; exact h ⟨0, rfl⟩
  have hm : ¬ (n % 2 = 0) := fun hc => h (Int.dvd_of_emod_eq_zero hc)
  rw [twoFactorsGo]
  simp [hne, hm]

theorem twoFactorsGo_pos (n : ℤ) (hne : n ≠ 0) (h : 2 ∣ n) :
    0 < twoFactorsGo n := by
  have hm : n % 2 = 0 := Int.emod_eq_zero_of_dvd h
  rw [twoFactorsGo]
  simp [hne, hm]

theorem pyRange_length (a b : ℤ) : (pyRange a b).length = (b - a).toNat := by
  rw [pyRange, List.length_map, List.length_range]

theorem mem_pyRange {a b x : ℤ} : x ∈ pyRange a b ↔ a ≤ x ∧ x < b := by
  rw [pyRange, List.mem_map]
  constructor
  · rintro ⟨j, hj, rfl⟩
    rw [List.mem_range] at hj
    omega
  · rintro ⟨h1, h2⟩
    exact ⟨(x - a).toNat, List.mem_range.mpr (by omega), by omega⟩

theorem pyRange_nodup (a b : ℤ) : (pyRange a b).Nodup := by
  rw [pyRange]
  exact (List.nodup_range _).map (fun x y hxy => by omega)

theorem pyRange_getElem (a b : ℤ) (j : ℕ) (hj : j < (pyRange a b).length) :
    (pyRange a b)[j] = a + (j : ℤ) := by
  simp [pyRange]

theorem pyRangeStep_length (a b step : ℤ) (hstep : 0 < step)
    (hdvd : step ∣ b - a) :
    (pyRangeStep a b step).length = ((b - a) / step).toNat := by
  obtain ⟨q, hq⟩ := hdvd
  have h1 : b - a + step - 1 = (step - 1) + q * step := by rw [hq]; ring
  have h2 : (step - 1) / step = 0 :=
    Int.ediv_eq_zero_of_lt (by omega) (by omega)
  rw [pyRangeStep, List.length_map, List.length_range, h1,
    Int.add_mul_ediv_right _ _ (by omega : step ≠ 0), h2, hq,
    Int.mul_ediv_cancel_left _ (by omega : step ≠ 0)]
  simp

theorem pyRangeStep_getElem (a b step : ℤ) (j : ℕ)
    (hj : j < (pyRangeStep a b step).length) :
    (pyRangeStep a b step)[j] = a + (j : ℤ) * step := by
  simp [pyRangeStep]

/-! ## Claim C9: the wrap-around indexing helper -/

/-- C9: for every non-empty sequence and every integer index (negative or
not, large or not), `_modulolist_get` returns the element of the sequence
at position `index mod length`. -/
theorem modulolist_get_eq_get_emod (l : List ℤ) (i : ℤ) (h : l ≠ []) :
    ∃ hlt : (i % (l.length : ℤ)).toNat < l.length,
      _modulolist_get l i = l.get ⟨(i % (l.length : ℤ)).toNat, hlt⟩ := by
  have hpos : (0 : ℤ) < (l.length : ℤ) := by
    have := List.length_pos.mpr h
    exact_mod_cast this
  have h0 : 0 ≤ i % (l.length : ℤ) := Int.emod_nonneg i (by omega)
  have h1 : i % (l.length : ℤ) < (l.length : ℤ) := Int.emod_lt_of_pos i hpos
  have hlt : (i % (l.length : ℤ)).toNat < l.length := by omega
  exact ⟨hlt, by rw [_modulolist_get, List.getD_eq_getElem l 0 hlt]; rfl⟩

/-- Witness for C9 at `l = [5, 7]`, `i = -3`: position `(-3) mod 2 = 1`. -/
theorem modulolist_get_eq_get_emod_witness :
    ∃ hlt : (((-3 : ℤ) % (([5, 7] : List ℤ).length : ℤ)).toNat <
        ([5, 7] : List ℤ).length),
      _modulolist_get [5, 7] (-3) =
        ([5, 7] : List ℤ).get ⟨(((-3 : ℤ) % (([5, 7] : List ℤ).length : ℤ)).toNat), hlt⟩ :=
  modulolist_get_eq_get_emod [5, 7] (-3) (by decide)

/-! ## Claim C8: the factorization of the two-vertex graph -/

/-- C8: `disjoint_matchings(2)` yields exactly one matching, the single
pair `(0, 1)`. -/
theorem disjoint_matchings_two : disjoint_matchings 2 = .ok [[(0, 1)]] := by
  have h : twoFactorsGo 2 = 1 := by simp [twoFactorsGo]
  simp only [disjoint_matchings, _two_factors, h]
  rfl

/-! ## Claims C6 and C10: input validation -/

/-- Counterexample to C6 as stated: the negative (hence non-positive) even
input `-2` is not rejected; the generator silently yields no matching. -/
theorem disjoint_matchings_neg_two :
    disjoint_matchings (-2) = .ok [] := by
  have h : twoFactorsGo (-2) = 1 := by simp [twoFactorsGo]
  simp only [disjoint_matchings, _two_factors, h]
  rfl

/-- C6 (amended): every odd `n` fails with the "must be even" validation
error, and `n = 0` fails with its own distinct diagnostic.  (Negative even
`n` is not rejected — see `disjoint_matchings_neg_two`.) -/
theorem disjoint_matchings_invalid (n : ℤ) (h : ¬ (2 ∣ n)) :
    disjoint_matchings n = .error "The input number must be even." ∧
    disjoint_matchings 0 = .error "_two_factors input cannot be zero." := by
  have hne : n ≠ 0 := by rintro rfl; exact h ⟨0, rfl⟩
  constructor
  · simp [disjoint_matchings, _two_factors, hne, twoFactorsGo_of_odd n h]
  · rfl

/-- Witness for C6 (amended) at the odd input `n = 5`. -/
theorem disjoint_matchings_invalid_witness :
    disjoint_matchings 5 = .error "The input number must be even." ∧
    disjoint_matchings 0 = .error "_two_factors input cannot be zero." :=
  disjoint_matchings_invalid 5 (by decide)

/-- If every generator in the lock-step zip is exhausted from the start,
the zip yields nothing. -/
theorem lockstep_of_all_nil (gens : List (List (List (ℤ × ℤ))))
    (h : ∀ g ∈ gens, g = []) : lockstep gens = [] := by
  rw [lockstep]
  cases hmin : (gens.map List.length).min? with
  | none => rfl
  | some m =>
    have hm : m ∈ gens.map List.length :=
      List.min?_mem (fun a b => min_choice a b) hmin
    obtain ⟨g, hg, rfl⟩ := List.mem_map.mp hm
    rw [h g hg]
    rfl

/-- C10: every negative even integer is silently accepted: no error is
raised and the generator yields the empty sequence of matchings. -/
theorem disjoint_matchings_neg_even (n : ℤ) (hneg : n < 0) (hev : 2 ∣ n) :
    disjoint_matchings n = .ok [] := by
  have hne : n ≠ 0 := by omega
  have ht : twoFactorsGo n ≠ 0 := (twoFactorsGo_pos n hne hev).ne'
  have hA : pyRange 1 n = [] := by
    rw [pyRange, (by omega : (n - 1).toNat = 0)]
    rfl
  have hsub : ∀ r s : ℤ, 0 < r → subgraphList n r s = [] := by
    intro r s hr
    rw [subgraphList, pyRangeStep]
    have hlt : (s + n - s + r - 1) / r < 1 :=
      (Int.ediv_lt_iff_lt_mul (b := 1) hr).mpr (by omega)
    rw [(by omega : ((s + n - s + r - 1) / r).toNat = 0)]
    rfl
  rw [disjoint_matchings, _two_factors]
  simp only [hne, if_false, ht, if_neg]
  · rw [hA]
    have hall : ∀ g ∈ (pyRange 0 (2 ^ (twoFactorsGo n - 1) : ℤ)).map
        (fun s => _twice_an_odd_handling
          (subgraphList n (2 ^ (twoFactorsGo n - 1)) s)), g = [] := by
      intro g hg
      obtain ⟨s, hs, rfl⟩ := List.mem_map.mp hg
      rw [hsub _ s (by positivity)]
      rfl
    rw [lockstep_of_all_nil _ hall]
    rfl

/-! ## Claim C7: behaviour of the `test` scan when a verification fails -/

/-- If every `n` before some failing `n` passes, the scan's fold stops at
the failing `n` with its error, whatever came before. -/
theorem scanFold_error_aborts (gen : ℤ → Except String (List (List (ℤ × ℤ))))
    (n : ℤ) (e : String) (l₁ l₂ : List ℤ)
    (hok : ∀ k ∈ l₁, verify_one gen k = .ok ())
    (herr : verify_one gen n = .error e) :
    ∀ acc : List ℤ,
      (l₁ ++ n :: l₂).foldlM (fun acc n =>
        match verify_one gen n with
        | Except.error e => (Except.error e : Except String (List ℤ))
        | Except.ok _ => Except.ok (acc ++ [n])) acc = Except.error e := by
  induction l₁ with
  | nil =>
    intro acc
    simp only [List.nil_append, List.foldlM_cons, herr]
    rfl
  | cons k l ih =>
    intro acc
    have hk := hok k (List.mem_cons_self k l)
    simp only [List.cons_append, List.foldlM_cons, hk]
    exact ih (fun k' hk' => hok k' (List.mem_cons_of_mem _ hk')) (acc ++ [k])

/-- C7 (amended): an error raised while verifying some `n` in the range
scan is NOT contained to that `n`: it propagates out of the loop, so the
scan aborts with that error and no outcome is reported for any later (or
any other) value in the range. -/
theorem testWith_error_aborts (gen : ℤ → Except String (List (List (ℤ × ℤ))))
    (mn mx n : ℤ) (e : String) (l₁ l₂ : List ℤ)
    (hsplit : pyRangeStep mn mx 2 = l₁ ++ n :: l₂)
    (hok : ∀ k ∈ l₁, verify_one gen k = .ok ())
    (herr : verify_one gen n = .error e) :
    testWith gen mn mx = .error e := by
  rw [testWith, hsplit]
  exact scanFold_error_aborts gen n e l₁ l₂ hok herr []

/-- Witness for the amended C7: scanning `2, 4` with the faulty generator
`badGen`, the duplicate-pair error at `n = 2` aborts the whole scan. -/
theorem testWith_error_aborts_witness :
    testWith badGen 2 6 = .error "0 in 1" :=
  testWith_error_aborts badGen 2 6 2 "0 in 1" [] [4]
    (by rfl) (by simp) (by rfl)

/-- Counterexample to C7 as stated: with a generator that emits a duplicate
pair for every `n` (the verifier's duplicate-pair check fires at `n = 2`),
the scan over `{2, 4}` does not report an outcome for the other value
`4` — it returns no outcome list at all (in particular not the full outcome
list `[2, 4]`), because the invariant-violation error for `n = 2` aborts
the entire range scan. -/
theorem testWith_error_not_contained :
    testWith badGen 2 6 = .error "0 in 1" ∧
    testWith badGen 2 6 ≠ .ok [2, 4] := by
  constructor
  · rfl
  · intro h
    rw [(by rfl : testWith badGen 2 6 = .error "0 in 1")] at h
    exact Except.noConfusion h

/-- Witness for C10 at `n = -4`. -/
theorem disjoint_matchings_neg_even_witness :
    disjoint_matchings (-4) = .ok [] :=
  disjoint_matchings_neg_even (-4) (by decide) (by decide)

/-! ## The 2-adic structure computed by `_two_factors` -/

/-- `twoFactorsGo` computes the exact number of factors of two. -/
theorem twoFactorsGo_spec (n : ℤ) (hne : n ≠ 0) :
    ((2 : ℤ) ^ twoFactorsGo n ∣ n) ∧
    ¬ ((2 : ℤ) ^ (twoFactorsGo n + 1) ∣ n) := by
  suffices H : ∀ N : ℕ, ∀ n : ℤ, n.natAbs = N → n ≠ 0 →
      ((2 : ℤ) ^ twoFactorsGo n ∣ n) ∧
      ¬ ((2 : ℤ) ^ (twoFactorsGo n + 1) ∣ n) from H n.natAbs n rfl hne
  intro N
  induction N using Nat.strong_induction_on with
  | _ N ih =>
    intro n hN hne
    by_cases h2 : n % 2 = 0
    · have hrec := ih (n / 2).natAbs (by omega) (n / 2) rfl (by omega)
      rw [twoFactorsGo, if_neg hne, if_pos h2]
      obtain ⟨hd, hnd⟩ := hrec
      have hn2 : n = 2 * (n / 2) := by omega
      constructor
      · have h1 : (2 : ℤ) ^ (twoFactorsGo (n / 2) + 1) ∣ 2 * (n / 2) := by
          rw [pow_succ']
          exact mul_dvd_mul_left 2 hd
        rwa [← hn2] at h1
      · intro hc
        have hc2 : (2 : ℤ) * 2 ^ (twoFactorsGo (n / 2) + 1) ∣ 2 * (n / 2) := by
          rw [← pow_succ', ← hn2]
          exact hc
        exact hnd ((mul_dvd_mul_iff_left (two_ne_zero)).mp hc2)
    · rw [twoFactorsGo, if_neg hne, if_neg h2]
      refine ⟨one_dvd n, fun hc => h2 (Int.emod_eq_zero_of_dvd ?_)⟩
      simpa using hc

/-- Pulled-apart form of the 2-adic decomposition of a positive even `n`:
with `t = twoFactorsGo n`, `n = 2^t * (n / 2^t)` and the cofactor is odd
and positive. -/
theorem oddPart_facts (n : ℤ) (hn : 2 ≤ n) (he : 2 ∣ n) :
    n = 2 ^ twoFactorsGo n * (n / 2 ^ twoFactorsGo n) ∧
    ¬ (2 ∣ n / 2 ^ twoFactorsGo n) ∧
    1 ≤ n / 2 ^ twoFactorsGo n := by
  obtain ⟨hd, hnd⟩ := twoFactorsGo_spec n (by omega)
  have heq : n = 2 ^ twoFactorsGo n * (n / 2 ^ twoFactorsGo n) :=
    (Int.mul_ediv_cancel' hd).symm
  have hT : (0 : ℤ) < 2 ^ twoFactorsGo n := by positivity
  refine ⟨heq, ?_, ?_⟩
  · rintro ⟨c, hc⟩
    apply hnd
    refine ⟨c, ?_⟩
    calc n = 2 ^ twoFactorsGo n * (n / 2 ^ twoFactorsGo n) := heq
    _ = 2 ^ twoFactorsGo n * (2 * c) := by rw [hc]
    _ = 2 ^ (twoFactorsGo n + 1) * c := by ring
  · nlinarith [heq, hT]

/-- The spec's 2-adic valuation agrees with the loop of `_two_factors` on
positive inputs. -/
theorem specV2_eq_twoFactorsGo (n : ℤ) (h : 1 ≤ n) :
    specV2 n = twoFactorsGo n := by
  obtain ⟨hd, hnd⟩ := twoFactorsGo_spec n (by omega)
  have hne : n.natAbs ≠ 0 := by omega
  have hcast : ∀ k : ℕ, ((2 : ℤ) ^ k ∣ n) ↔ (2 ^ k ∣ n.natAbs) := by
    intro k
    rw [← Int.natAbs_dvd_natAbs]
    simp [Int.natAbs_pow]
  have h1 : twoFactorsGo n ≤ n.natAbs.factorization 2 :=
    (Nat.Prime.pow_dvd_iff_le_factorization Nat.prime_two hne).mp
      ((hcast _).mp hd)
  have h2 : ¬ (twoFactorsGo n + 1 ≤ n.natAbs.factorization 2) := fun hc =>
    hnd ((hcast _).mpr
      ((Nat.Prime.pow_dvd_iff_le_factorization Nat.prime_two hne).mpr hc))
  rw [specV2]
  omega

theorem twice_eq_rotSteps (el : List ℤ) :
    _twice_an_odd_handling el = (List.range (el.length / 2)).map (specRotStep el) := rfl

theorem matchingA_eq_spec (n i : ℤ) (h : 0 ≤ n / (Int.gcd n i : ℤ)) :
    matchingA n i = specOffsetMatching n i := by
  rw [matchingA, specOffsetMatching]
  apply congrArg
  funext k
  rw [pyRangeStep, List.map_map]
  have hc : ((n / (Int.gcd n i : ℤ) - 0 + 2 - 1) / 2).toNat
      = ((n / (Int.gcd n i : ℤ)).toNat + 1) / 2 := by omega
  rw [hc]
  apply List.map_congr_left
  intro jj _
  simp only [Function.comp_apply]
  rw [(by ring : (0 : ℤ) + (jj : ℤ) * 2 = 2 * (jj : ℤ))]

theorem foldl_min_const (c : ℕ) (l : List ℕ) (h : ∀ x ∈ l, x = c) :
    l.foldl min c = c := by
  induction l with
  | nil => rfl
  | cons a l ih =>
    rw [List.foldl_cons, h a (List.mem_cons_self a l), min_self]
    exact ih (fun x hx => h x (List.mem_cons_of_mem _ hx))

theorem min?_const (l : List ℕ) (c : ℕ) (hne : l ≠ []) (h : ∀ x ∈ l, x = c) :
    l.min? = some c := by
  cases l with
  | nil => exact absurd rfl hne
  | cons a l =>
    rw [List.min?_cons', h a (List.mem_cons_self a l),
      foldl_min_const c l (fun x hx => h x (List.mem_cons_of_mem _ hx))]

theorem subgraphList_eq_spec (n s : ℤ) (hn : 2 ≤ n) (he : 2 ∣ n) (hs0 : 0 ≤ s)
    (hsr : s < 2 ^ (specV2 n - 1)) :
    subgraphList n (2 ^ (specV2 n - 1)) s = specSubgraph n s := by
  have hv2 : specV2 n = twoFactorsGo n := specV2_eq_twoFactorsGo n (by omega)
  have hT := (twoFactorsGo_spec n (by omega)).1
  have ht1 : 0 < twoFactorsGo n := twoFactorsGo_pos n (by omega) he
  set r : ℤ := 2 ^ (specV2 n - 1) with hr
  have hrdvd : r ∣ n := by
    rw [hr, hv2]
    exact dvd_trans (pow_dvd_pow 2 (by omega)) hT
  have hrpos : (0 : ℤ) < r := by rw [hr]; positivity
  have hlen : (pyRangeStep s (s + n) r).length = (n / r).toNat := by
    rw [pyRangeStep_length s (s + n) r hrpos (by simpa using hrdvd)]
    simp
  have hrn : (n / r) * r = n := by
    rw [mul_comm]; exact Int.mul_ediv_cancel' hrdvd
  rw [subgraphList, specSubgraph]
  apply List.ext_getElem
  · rw [List.length_map, hlen, List.length_map, List.length_range]
  · intro q h1 h2
    have hq : q < (n / r).toNat := by rw [List.length_map, hlen] at h1; exact h1
    rw [List.getElem_map, List.getElem_map, List.getElem_range,
      pyRangeStep_getElem s (s + n) r q (by rw [hlen]; exact hq)]
    have hql : (q : ℤ) ≤ n / r - 1 := by omega
    have hmul : (q : ℤ) * r ≤ n - r := by
      calc (q : ℤ) * r ≤ (n / r - 1) * r :=
            mul_le_mul_of_nonneg_right hql (le_of_lt hrpos)
      _ = n - r := by rw [sub_mul, one_mul, hrn]
    have hq0 : (0 : ℤ) ≤ (q : ℤ) * r := mul_nonneg (by positivity) (le_of_lt hrpos)
    exact Int.emod_eq_of_lt (by omega) (by omega)

theorem dm_eq_spec (n : ℤ) (hn : 2 ≤ n) (he : 2 ∣ n) :
    disjoint_matchings n = .ok (specRegimeA n ++ specRegimeB n) := by
  have hne : n ≠ 0 := by omega
  have hv2 : specV2 n = twoFactorsGo n := specV2_eq_twoFactorsGo n (by omega)
  have ht1 : 0 < twoFactorsGo n := twoFactorsGo_pos n hne he
  have htf : ¬ (twoFactorsGo n = 0) := ht1.ne'
  have hrr : (2 : ℤ) ^ (twoFactorsGo n - 1) = 2 ^ (specV2 n - 1) := by rw [hv2]
  have hrpos : (0 : ℤ) < 2 ^ (specV2 n - 1) := by positivity
  -- Regime A
  have hA : ((pyRange 1 n).filter (fun i =>
        !(i % (2 * 2 ^ (twoFactorsGo n - 1)) == 0) && !(i == n / 2))).map (matchingA n)
      = specRegimeA n := by
    rw [specRegimeA]
    have hpred : ∀ i ∈ pyRange 1 n,
        (!(i % (2 * 2 ^ (twoFactorsGo n - 1)) == 0) && !(i == n / 2))
        = (decide (¬ ((2 : ℤ) ^ specV2 n ∣ i)) && decide (¬ (i = n / 2))) := by
      intro i _
      have hTT : (2 : ℤ) * 2 ^ (twoFactorsGo n - 1) = 2 ^ specV2 n := by
        rw [hv2, ← pow_succ']
        congr 1
        omega
      rw [hTT]
      have h1 : (i % (2 : ℤ) ^ specV2 n == 0) = decide ((2 : ℤ) ^ specV2 n ∣ i) := by
        rw [Bool.eq_iff_iff, beq_iff_eq, decide_eq_true_iff]
        exact Int.dvd_iff_emod_eq_zero.symm
      have h2 : (i == n / 2) = decide (i = n / 2) := by
        rw [Bool.eq_iff_iff, beq_iff_eq, decide_eq_true_iff]
      rw [h1, h2, decide_not, decide_not]
    rw [List.filter_congr hpred]
    apply List.map_congr_left
    intro i hi
    rw [List.mem_filter] at hi
    exact matchingA_eq_spec n i (Int.ediv_nonneg (by omega) (by positivity))
  -- Regime B
  have hgens : (pyRange 0 (2 ^ (twoFactorsGo n - 1) : ℤ)).map
      (fun s => _twice_an_odd_handling (subgraphList n (2 ^ (twoFactorsGo n - 1)) s))
      = (pyRange 0 (2 ^ (specV2 n - 1) : ℤ)).map
      (fun s => (List.range ((n / (2 ^ (specV2 n - 1) : ℤ)).toNat / 2)).map
        (specRotStep (specSubgraph n s))) := by
    rw [hrr]
    apply List.map_congr_left
    intro s hs
    rw [mem_pyRange] at hs
    rw [subgraphList_eq_spec n s hn he hs.1 hs.2, twice_eq_rotSteps]
    congr 2
    simp [specSubgraph]
  have hB : lockstep ((pyRange 0 (2 ^ (twoFactorsGo n - 1) : ℤ)).map
      (fun s => _twice_an_odd_handling (subgraphList n (2 ^ (twoFactorsGo n - 1)) s)))
      = specRegimeB n := by
    rw [hgens, lockstep]
    have hlenpos : 0 < (pyRange 0 (2 ^ (specV2 n - 1) : ℤ)).length := by
      rw [pyRange_length]
      omega
    have hmin : (((pyRange 0 (2 ^ (specV2 n - 1) : ℤ)).map
        (fun s => (List.range ((n / (2 ^ (specV2 n - 1) : ℤ)).toNat / 2)).map
          (specRotStep (specSubgraph n s)))).map List.length).min?
        = some ((n / (2 ^ (specV2 n - 1) : ℤ)).toNat / 2) := by
      apply min?_const
      · intro hc
        rw [List.map_eq_nil_iff, List.map_eq_nil_iff] at hc
        rw [hc] at hlenpos
        simp at hlenpos
      · intro x hx
        rw [List.map_map, List.mem_map] at hx
        obtain ⟨s, hs, rfl⟩ := hx
        simp
    rw [hmin, specRegimeB]
    apply List.map_congr_left
    intro idx hidx
    rw [List.mem_range] at hidx
    congr 1
    rw [List.map_map]
    apply List.map_congr_left
    intro s hs
    simp only [Function.comp_apply]
    rw [List.getD_eq_getElem _ [] (by rw [List.length_map, List.length_range]; exact hidx),
      List.getElem_map, List.getElem_range]
  -- assemble
  simp only [disjoint_matchings, _two_factors, if_neg hne, if_neg htf]
  rw [hA, hB]

/-! ## Claims C4 and C5: the two regimes match the spec's constructions -/

/-- C4: for every even `n ≥ 2`, the matchings emitted before the rotation
phase are exactly the spec's Regime-A offset matchings, in increasing order
of offset `i`, skipping multiples of `2^v2(n)` and `n/2`, each built from
the gcd-based cycle decomposition. -/
theorem regimeA_refines_spec (n : ℤ) (hn : 2 ≤ n) (he : 2 ∣ n) :
    ∃ rest, disjoint_matchings n = .ok (specRegimeA n ++ rest) :=
  ⟨specRegimeB n, dm_eq_spec n hn he⟩

/-- Witness for C4 at `n = 6`. -/
theorem regimeA_refines_spec_witness :
    ∃ rest, disjoint_matchings 6 = .ok (specRegimeA 6 ++ rest) :=
  regimeA_refines_spec 6 (by norm_num) (by norm_num)

/-- C5: for every even `n ≥ 2`, the matchings emitted after all offset
matchings are exactly the spec's Regime-B lock-step rotation matchings of
the `r = 2^(v2(n)-1)` residue subgraphs, and there are exactly `halflen`
of them, in increasing order of `idx`. -/
theorem regimeB_refines_spec (n : ℤ) (hn : 2 ≤ n) (he : 2 ∣ n) :
    disjoint_matchings n = .ok (specRegimeA n ++ specRegimeB n) ∧
    (specRegimeB n).length = (n / (2 ^ (specV2 n - 1) : ℤ)).toNat / 2 := by
  refine ⟨dm_eq_spec n hn he, ?_⟩
  rw [specRegimeB]
  simp

/-- Witness for C5 at `n = 12`. -/
theorem regimeB_refines_spec_witness :
    disjoint_matchings 12 = .ok (specRegimeA 12 ++ specRegimeB 12) ∧
    (specRegimeB 12).length = ((12 : ℤ) / (2 ^ (specV2 12 - 1) : ℤ)).toNat / 2 :=
  regimeB_refines_spec 12 (by norm_num) (by norm_num)

/-! ## Permutation machinery for the coverage proofs -/

theorem perm_of_nodup_subset_length {α : Type} (l₁ l₂ : List α)
    (h₁ : l₁.Nodup) (hsub : l₁ ⊆ l₂) (hlen : l₂.length ≤ l₁.length) :
    l₁.Perm l₂ :=
  (h₁.subperm hsub).perm_of_length_le hlen

/-- A doubly-indexed family `f k j` with `k < G`, `j < C` that lands
injectively inside `[0, n)` with `G * C = n` enumerates `[0, n)` exactly. -/
theorem flatMap_pyRange_perm (G C n : ℤ) (f : ℤ → ℤ → ℤ)
    (hG : 0 < G) (hC : 0 < C) (hGC : G * C = n)
    (hmem : ∀ k j, 0 ≤ k → k < G → 0 ≤ j → j < C → 0 ≤ f k j ∧ f k j < n)
    (hinj : ∀ k j k' j', 0 ≤ k → k < G → 0 ≤ j → j < C →
      0 ≤ k' → k' < G → 0 ≤ j' → j' < C → f k j = f k' j' → k = k' ∧ j = j') :
    ((pyRange 0 G).flatMap (fun k => (pyRange 0 C).map (f k))).Perm (pyRange 0 n) := by
  apply perm_of_nodup_subset_length
  · rw [List.nodup_flatMap]
    constructor
    · intro k hk
      rw [mem_pyRange] at hk
      apply List.Nodup.map_on ?_ (pyRange_nodup 0 C)
      intro x hx y hy hf
      rw [mem_pyRange] at hx hy
      exact (hinj k x k y (by omega) (by omega) (by omega) (by omega)
        (by omega) (by omega) (by omega) (by omega) hf).2
    · refine List.Pairwise.imp_of_mem ?_ (pyRange_nodup 0 G)
      intro k k' hk hk' hne
      rw [mem_pyRange] at hk hk'
      intro x hx hx'
      rw [List.mem_map] at hx hx'
      obtain ⟨j, hj, rfl⟩ := hx
      obtain ⟨j', hj', hf⟩ := hx'
      rw [mem_pyRange] at hj hj'
      exact hne (hinj k j k' j' (by omega) (by omega) (by omega) (by omega)
        (by omega) (by omega) (by omega) (by omega) hf.symm).1
  · intro x hx
    rw [List.mem_flatMap] at hx
    obtain ⟨k, hk, hx⟩ := hx
    rw [List.mem_map] at hx
    obtain ⟨j, hj, rfl⟩ := hx
    rw [mem_pyRange] at hk hj ⊢
    have := hmem k j (by omega) (by omega) (by omega) (by omega)
    omega
  · rw [pyRange_length, List.length_flatMap]
    have hconst : List.map (List.length ∘ fun k => (pyRange 0 C).map (f k)) (pyRange 0 G)
        = List.replicate (pyRange 0 G).length (C.toNat) := by
      rw [← List.map_const]
      apply List.map_congr_left
      intro k _
      simp [pyRange_length, Function.const]
    rw [hconst, List.sum_replicate, smul_eq_mul, pyRange_length]
    have h1 : (G - 0).toNat * C.toNat = (n - 0).toNat := by
      have hG0 : (0 : ℤ) ≤ G - 0 := by omega
      have hC0 : (0 : ℤ) ≤ C := by omega
      have hn0 : (0 : ℤ) ≤ n - 0 := by nlinarith
      have h2 : ((G - 0).toNat : ℤ) * (C.toNat : ℤ) = ((n - 0).toNat : ℤ) := by
        rw [Int.toNat_of_nonneg hG0, Int.toNat_of_nonneg hC0, Int.toNat_of_nonneg hn0]
        nlinarith
      exact_mod_cast h2
    omega

/-- Taking alternate pairs of `f` applied at `2jj` and `2jj+1` enumerates,
up to order, `f` over the full even range. -/
theorem flatMap_pair_interleave (H : ℕ) (f : ℕ → ℤ) :
    ((List.range H).flatMap (fun jj => [f (2 * jj), f (2 * jj + 1)])).Perm
      ((List.range (2 * H)).map f) := by
  induction H with
  | zero => simp
  | succ H ih =>
    rw [List.range_succ, List.flatMap_append,
      (by ring : 2 * (H + 1) = (2 * H + 1) + 1), List.range_succ, List.range_succ]
    simp only [List.flatMap_cons, List.flatMap_nil, List.append_nil, List.map_append]
    refine (ih.append (List.Perm.refl [f (2 * H), f (2 * H + 1)])).trans ?_
    simp [List.append_assoc]

theorem pairEndpoints_flatten (l : List (List (ℤ × ℤ))) :
    pairEndpoints l.flatten = l.flatMap pairEndpoints := by
  rw [pairEndpoints, List.flatten_eq_flatMap, List.flatMap_assoc]
  rfl

theorem pairEndpoints_flatMap (l : List ℤ) (f : ℤ → List (ℤ × ℤ)) :
    pairEndpoints (l.flatMap f) = l.flatMap (fun x => pairEndpoints (f x)) := by
  rw [pairEndpoints, List.flatMap_assoc]
  rfl

theorem pairEndpoints_map_pairs (l : List ℕ) (f : ℕ → ℤ × ℤ) :
    pairEndpoints (l.map f) = l.flatMap (fun x => [(f x).1, (f x).2]) := by
  rw [pairEndpoints, List.flatMap_map]

theorem pairEndpoints_length (l : List (ℤ × ℤ)) :
    (pairEndpoints l).length = 2 * l.length := by
  induction l with
  | nil => rfl
  | cons p l ih =>
    rw [pairEndpoints] at ih ⊢
    rw [List.flatMap_cons, List.length_append, ih]
    simp only [List.length_cons, List.length_nil]
    omega

theorem phiA_inj (n i : ℤ) (hn : 2 ≤ n) (hi1 : 1 ≤ i) (hin : i < n)
    (k j k' j' : ℤ)
    (hk0 : 0 ≤ k) (hkg : k < (Int.gcd n i : ℤ))
    (hj0 : 0 ≤ j) (hjC : j < n / (Int.gcd n i : ℤ))
    (hk'0 : 0 ≤ k') (hk'g : k' < (Int.gcd n i : ℤ))
    (hj'0 : 0 ≤ j') (hj'C : j' < n / (Int.gcd n i : ℤ))
    (heq : (k + j * i) % n = (k' + j' * i) % n) : k = k' ∧ j = j' := by
  have hgpos : (0 : ℤ) < (Int.gcd n i : ℤ) := by
    have := Int.gcd_pos_of_ne_zero_left i (by omega : n ≠ 0)
    exact_mod_cast this
  have hgn : ((Int.gcd n i : ℤ)) ∣ n := Int.gcd_dvd_left
  have hgi : ((Int.gcd n i : ℤ)) ∣ i := Int.gcd_dvd_right
  have hgC : (Int.gcd n i : ℤ) * (n / (Int.gcd n i : ℤ)) = n :=
    Int.mul_ediv_cancel' hgn
  have hgI : (Int.gcd n i : ℤ) * (i / (Int.gcd n i : ℤ)) = i :=
    Int.mul_ediv_cancel' hgi
  have hdvd : n ∣ (k + j * i) - (k' + j' * i) :=
    Int.dvd_of_emod_eq_zero (Int.emod_eq_emod_iff_emod_sub_eq_zero.mp heq)
  have hkk : (Int.gcd n i : ℤ) ∣ k - k' := by
    have h1 := dvd_trans hgn hdvd
    have h2 : (Int.gcd n i : ℤ) ∣ j * i - j' * i :=
      dvd_sub (hgi.mul_left j) (hgi.mul_left j')
    have h3 : k - k' = ((k + j * i) - (k' + j' * i)) - (j * i - j' * i) := by
      ring
    rw [h3]
    exact dvd_sub h1 h2
  have hkeq : k = k' := by
    have := Int.eq_zero_of_abs_lt_dvd hkk (by rw [abs_lt]; omega)
    omega
  subst hkeq
  refine ⟨rfl, ?_⟩
  have hdvd2 : n ∣ (j - j') * i := by
    have h3 : (j - j') * i = (k + j * i) - (k + j' * i) := by ring
    rw [h3]
    exact hdvd
  have hjj : (n / (Int.gcd n i : ℤ)) ∣ (j - j') * (i / (Int.gcd n i : ℤ)) := by
    rcases hdvd2 with ⟨c, hc⟩
    refine ⟨c, ?_⟩
    apply mul_left_cancel₀ (by omega : (Int.gcd n i : ℤ) ≠ 0)
    calc (Int.gcd n i : ℤ) * ((j - j') * (i / (Int.gcd n i : ℤ)))
        = (j - j') * ((Int.gcd n i : ℤ) * (i / (Int.gcd n i : ℤ))) := by ring
      _ = (j - j') * i := by rw [hgI]
      _ = n * c := hc
      _ = (Int.gcd n i : ℤ) * (n / (Int.gcd n i : ℤ) * c) := by
          rw [← mul_assoc, hgC]
  have hcop : IsCoprime (n / (Int.gcd n i : ℤ)) (i / (Int.gcd n i : ℤ)) := by
    rw [Int.isCoprime_iff_gcd_eq_one]
    exact Int.gcd_div_gcd_div_gcd (Int.gcd_pos_of_ne_zero_left i (by omega))
  have hfin := hcop.dvd_of_dvd_mul_right hjj
  have := Int.eq_zero_of_abs_lt_dvd hfin (by rw [abs_lt]; omega)
  omega

theorem specOffsetMatching_endpoints (n i : ℤ) (hn : 2 ≤ n) (hi1 : 1 ≤ i)
    (hin : i < n) (hCe : 2 ∣ n / (Int.gcd n i : ℤ)) :
    (pairEndpoints (specOffsetMatching n i)).Perm (pyRange 0 n) := by
  have hgpos : (0 : ℤ) < (Int.gcd n i : ℤ) := by
    have := Int.gcd_pos_of_ne_zero_left i (by omega : n ≠ 0)
    exact_mod_cast this
  have hgn : ((Int.gcd n i : ℤ)) ∣ n := Int.gcd_dvd_left
  have hgC : (Int.gcd n i : ℤ) * (n / (Int.gcd n i : ℤ)) = n :=
    Int.mul_ediv_cancel' hgn
  have hCpos : (0 : ℤ) < n / (Int.gcd n i : ℤ) := by nlinarith
  rw [specOffsetMatching, pairEndpoints_flatMap]
  have hstep : ∀ k ∈ pyRange 0 (Int.gcd n i : ℤ),
      (pairEndpoints ((List.range (((n / (Int.gcd n i : ℤ)).toNat + 1) / 2)).map
        (fun jj : ℕ => ((k + (2 * (jj : ℤ)) * i) % n,
          (k + (2 * (jj : ℤ) + 1) * i) % n)))).Perm
      ((pyRange 0 (n / (Int.gcd n i : ℤ))).map (fun j => (k + j * i) % n)) := by
    intro k _
    rw [pairEndpoints_map_pairs]
    have hfe : (fun jj : ℕ => [(k + (2 * (jj : ℤ)) * i) % n,
          (k + (2 * (jj : ℤ) + 1) * i) % n])
        = (fun jj : ℕ => [(fun j : ℕ => (k + (j : ℤ) * i) % n) (2 * jj),
            (fun j : ℕ => (k + (j : ℤ) * i) % n) (2 * jj + 1)]) := by
      funext jj
      push_cast
      ring_nf
    rw [hfe]
    have h1 := flatMap_pair_interleave (((n / (Int.gcd n i : ℤ)).toNat + 1) / 2)
      (fun j : ℕ => (k + (j : ℤ) * i) % n)
    have h2 : 2 * (((n / (Int.gcd n i : ℤ)).toNat + 1) / 2)
        = (n / (Int.gcd n i : ℤ)).toNat := by omega
    rw [h2] at h1
    refine h1.trans (List.Perm.of_eq ?_)
    rw [pyRange, List.map_map]
    rw [(by omega : (n / (Int.gcd n i : ℤ) - 0).toNat = (n / (Int.gcd n i : ℤ)).toNat)]
    apply List.map_congr_left
    intro j _
    simp only [Function.comp_apply]
    rw [(by ring : (0 : ℤ) + (j : ℤ) = (j : ℤ))]
  refine (List.Perm.flatMap_left _ hstep).trans ?_
  exact flatMap_pyRange_perm (Int.gcd n i : ℤ) (n / (Int.gcd n i : ℤ)) n
    (fun k j => (k + j * i) % n) hgpos hCpos hgC
    (fun k j hk0 hkg hj0 hjC =>
      ⟨Int.emod_nonneg _ (by omega), Int.emod_lt_of_pos _ (by omega)⟩)
    (fun k j k' j' hk0 hkg hj0 hjC hk'0 hk'g hj'0 hj'C heq =>
      phiA_inj n i hn hi1 hin k j k' j' hk0 hkg hj0 hjC hk'0 hk'g hj'0 hj'C heq)

theorem gcd_sub_right (n d : ℤ) : Int.gcd n (n - d) = Int.gcd n d := by
  apply Nat.dvd_antisymm
  · have h1 : (↑(Int.gcd n (n - d)) : ℤ) ∣ n := Int.gcd_dvd_left
    have h2 : (↑(Int.gcd n (n - d)) : ℤ) ∣ n - d := Int.gcd_dvd_right
    have h3 : (↑(Int.gcd n (n - d)) : ℤ) ∣ d := by
      have h4 := dvd_sub h1 h2
      have h5 : n - (n - d) = d := by ring
      rwa [h5] at h4
    exact Int.natCast_dvd_natCast.mp (Int.dvd_gcd h1 h3)
  · have h1 : (↑(Int.gcd n d) : ℤ) ∣ n := Int.gcd_dvd_left
    have h2 : (↑(Int.gcd n d) : ℤ) ∣ d := Int.gcd_dvd_right
    exact Int.natCast_dvd_natCast.mp (Int.dvd_gcd h1 (dvd_sub h1 h2))

theorem mem_specOffsetMatching_intro (n i : ℤ) (k : ℤ) (jj : ℕ)
    (hk : k ∈ pyRange 0 (Int.gcd n i : ℤ))
    (hjj : jj < ((n / (Int.gcd n i : ℤ)).toNat + 1) / 2) :
    ((k + (2 * (jj : ℤ)) * i) % n, (k + (2 * (jj : ℤ) + 1) * i) % n)
      ∈ specOffsetMatching n i := by
  rw [specOffsetMatching, List.mem_flatMap]
  exact ⟨k, hk, List.mem_map.mpr ⟨jj, List.mem_range.mpr hjj, rfl⟩⟩

theorem mem_specOffsetMatching_elim (n i : ℤ) (p : ℤ × ℤ)
    (hp : p ∈ specOffsetMatching n i) :
    ∃ (k : ℤ) (jj : ℕ), (0 ≤ k ∧ k < (Int.gcd n i : ℤ)) ∧
      jj < ((n / (Int.gcd n i : ℤ)).toNat + 1) / 2 ∧
      p = ((k + (2 * (jj : ℤ)) * i) % n, (k + (2 * (jj : ℤ) + 1) * i) % n) := by
  rw [specOffsetMatching, List.mem_flatMap] at hp
  obtain ⟨k, hk, hp⟩ := hp
  rw [List.mem_map] at hp
  obtain ⟨jj, hjj, heq⟩ := hp
  rw [mem_pyRange] at hk
  rw [List.mem_range] at hjj
  exact ⟨k, jj, ⟨hk.1, hk.2⟩, hjj, heq.symm⟩

theorem specOffsetMatching_valid (n i : ℤ) (hn : 2 ≤ n) (hi1 : 1 ≤ i) (hin : i < n)
    (p : ℤ × ℤ) (hp : p ∈ specOffsetMatching n i) :
    p.1 ≠ p.2 ∧ 0 ≤ p.1 ∧ p.1 < n ∧ 0 ≤ p.2 ∧ p.2 < n := by
  obtain ⟨k, jj, hk, hjj, rfl⟩ := mem_specOffsetMatching_elim n i p hp
  refine ⟨?_, Int.emod_nonneg _ (by omega), Int.emod_lt_of_pos _ (by omega),
    Int.emod_nonneg _ (by omega), Int.emod_lt_of_pos _ (by omega)⟩
  intro hceq
  have hdvd : n ∣ -i := by
    have h := Int.dvd_of_emod_eq_zero (Int.emod_eq_emod_iff_emod_sub_eq_zero.mp hceq)
    have h2 : (k + (2 * (jj : ℤ)) * i) - (k + (2 * (jj : ℤ) + 1) * i) = -i := by
      ring
    rwa [h2] at h
  have := Int.eq_zero_of_abs_lt_dvd hdvd (by rw [abs_lt]; omega)
  omega

theorem specOffsetMatching_length (n i : ℤ) (hn : 2 ≤ n) (he : 2 ∣ n) (hi1 : 1 ≤ i)
    (hin : i < n) (hCe : 2 ∣ n / (Int.gcd n i : ℤ)) :
    (specOffsetMatching n i).length = (n / 2).toNat := by
  have hperm := specOffsetMatching_endpoints n i hn hi1 hin hCe
  have hlen := hperm.length_eq
  rw [pairEndpoints_length, pyRange_length] at hlen
  omega

theorem emod_shift_eq (n x d a : ℤ) (hx : x % n = a)
    (hd : 0 ≤ d) (hdn : d < n) (had : 0 ≤ a + d) (hadn : a + d < n) :
    (x + d) % n = a + d := by
  rw [Int.add_emod, hx, Int.emod_eq_of_lt hd hdn]
  exact Int.emod_eq_of_lt had hadn

theorem specOffsetMatching_covers (n d a : ℤ) (hn : 2 ≤ n)
    (hd1 : 1 ≤ d) (hdn : d < n) (hCe : 2 ∣ n / (Int.gcd n d : ℤ))
    (ha0 : 0 ≤ a) (hb : a + d < n) :
    (a, a + d) ∈ specOffsetMatching n d ∨
    (a + d, a) ∈ specOffsetMatching n (n - d) := by
  have hgpos : (0 : ℤ) < (Int.gcd n d : ℤ) := by
    have := Int.gcd_pos_of_ne_zero_left d (by omega : n ≠ 0)
    exact_mod_cast this
  have hgn : ((Int.gcd n d : ℤ)) ∣ n := Int.gcd_dvd_left
  have hgd : ((Int.gcd n d : ℤ)) ∣ d := Int.gcd_dvd_right
  have hgC : (Int.gcd n d : ℤ) * (n / (Int.gcd n d : ℤ)) = n :=
    Int.mul_ediv_cancel' hgn
  have hgD : (Int.gcd n d : ℤ) * (d / (Int.gcd n d : ℤ)) = d :=
    Int.mul_ediv_cancel' hgd
  have hCpos : (0 : ℤ) < n / (Int.gcd n d : ℤ) := by nlinarith
  have hmem : a ∈ pairEndpoints (specOffsetMatching n d) :=
    ((specOffsetMatching_endpoints n d hn hd1 hdn hCe).mem_iff).mpr
      (mem_pyRange.mpr ⟨ha0, by omega⟩)
  rw [specOffsetMatching, pairEndpoints_flatMap] at hmem
  rw [List.mem_flatMap] at hmem
  obtain ⟨k, hk, hmem⟩ := hmem
  rw [pairEndpoints_map_pairs, List.mem_flatMap] at hmem
  obtain ⟨jj, hjj, hmem⟩ := hmem
  rw [List.mem_range] at hjj
  rw [mem_pyRange] at hk
  simp only [List.mem_cons, List.not_mem_nil, or_false] at hmem
  rcases hmem with ha | ha
  · left
    have h2 : (k + (2 * (jj : ℤ) + 1) * d) % n = a + d := by
      rw [(by ring : k + (2 * (jj : ℤ) + 1) * d = (k + (2 * (jj : ℤ)) * d) + d)]
      exact emod_shift_eq n _ d a ha.symm (by omega) (by omega) (by omega) (by omega)
    have hintro := mem_specOffsetMatching_intro n d k jj
      (mem_pyRange.mpr ⟨hk.1, hk.2⟩) hjj
    rw [h2, (ha.symm : (k + 2 * (jj : ℤ) * d) % n = a)] at hintro
    exact hintro
  · right
    have hgg : ((Int.gcd n (n - d) : ℕ) : ℤ) = (Int.gcd n d : ℤ) := by
      exact_mod_cast congrArg (fun x : ℕ => (x : ℤ)) (gcd_sub_right n d)
    set H : ℕ := ((n / (Int.gcd n d : ℤ)).toNat + 1) / 2 with hH
    have hH1 : 1 ≤ H := by omega
    have hC2 : (2 : ℤ) * (H : ℤ) = n / (Int.gcd n d : ℤ) := by omega
    set jj' : ℕ := H - 1 - jj with hjj'def
    have hjj'c : (jj' : ℤ) = (H : ℤ) - 1 - (jj : ℤ) := by omega
    have key : (n / (Int.gcd n d : ℤ)) * d = n * (d / (Int.gcd n d : ℤ)) := by
      calc (n / (Int.gcd n d : ℤ)) * d
          = (n / (Int.gcd n d : ℤ)) * ((Int.gcd n d : ℤ) * (d / (Int.gcd n d : ℤ))) := by
            rw [hgD]
        _ = ((Int.gcd n d : ℤ) * (n / (Int.gcd n d : ℤ))) * (d / (Int.gcd n d : ℤ)) := by
            ring
        _ = n * (d / (Int.gcd n d : ℤ)) := by rw [hgC]
    have hsecond : (k + (2 * (jj' : ℤ) + 1) * (n - d)) % n = a := by
      have hcong : (k + (2 * (jj' : ℤ) + 1) * (n - d)) % n
          = (k + (2 * (jj : ℤ) + 1) * d) % n := by
        rw [Int.emod_eq_emod_iff_emod_sub_eq_zero]
        apply Int.emod_eq_zero_of_dvd
        refine ⟨2 * (H : ℤ) - 2 * (jj : ℤ) - 1 - d / (Int.gcd n d : ℤ), ?_⟩
        rw [hjj'c]
        linear_combination (-d) * hC2 + (-1 : ℤ) * key
      rw [hcong]
      exact ha.symm
    have hfirst : (k + (2 * (jj' : ℤ)) * (n - d)) % n = a + d := by
      have hcong : (k + (2 * (jj' : ℤ)) * (n - d)) % n
          = ((k + (2 * (jj : ℤ) + 1) * d) + d) % n := by
        rw [Int.emod_eq_emod_iff_emod_sub_eq_zero]
        apply Int.emod_eq_zero_of_dvd
        refine ⟨2 * (H : ℤ) - 2 * (jj : ℤ) - 2 - d / (Int.gcd n d : ℤ), ?_⟩
        rw [hjj'c]
        linear_combination (-d) * hC2 + (-1 : ℤ) * key
      rw [hcong]
      exact emod_shift_eq n _ d a ha.symm (by omega) (by omega) (by omega) (by omega)
    have hintro := mem_specOffsetMatching_intro n (n - d) k jj'
      (mem_pyRange.mpr (by rw [hgg]; exact ⟨hk.1, hk.2⟩))
      (by
        have hgoal : ((n / ((Int.gcd n (n - d) : ℕ) : ℤ)).toNat + 1) / 2 = H := by
          rw [hgg]
        rw [hgoal]
        omega)
    rw [hfirst, hsecond] at hintro
    exact hintro

theorem regimeB_facts (n : ℤ) (hn : 2 ≤ n) (he : 2 ∣ n) :
    1 ≤ specV2 n ∧ ((2 : ℤ) ^ (specV2 n - 1)) ∣ n ∧
    n / ((2 : ℤ) ^ (specV2 n - 1)) = 2 * (n / (2 : ℤ) ^ specV2 n) ∧
    1 ≤ n / (2 : ℤ) ^ specV2 n ∧ ¬ (2 ∣ n / (2 : ℤ) ^ specV2 n) := by
  have hv2 := specV2_eq_twoFactorsGo n (by omega)
  have ht1 : 0 < twoFactorsGo n := twoFactorsGo_pos n (by omega) he
  obtain ⟨heq, hodd, hm1⟩ := oddPart_facts n hn he
  rw [hv2]
  have hp : (2 : ℤ) ^ twoFactorsGo n = 2 ^ (twoFactorsGo n - 1) * 2 := by
    rw [← pow_succ]
    congr 1
    omega
  refine ⟨by omega, ?_, ?_, hm1, hodd⟩
  · exact dvd_trans (pow_dvd_pow 2 (by omega)) (twoFactorsGo_spec n (by omega)).1
  · have h2 : n = 2 ^ (twoFactorsGo n - 1) * (2 * (n / 2 ^ twoFactorsGo n)) := by
      calc n = 2 ^ twoFactorsGo n * (n / 2 ^ twoFactorsGo n) := heq
        _ = 2 ^ (twoFactorsGo n - 1) * (2 * (n / 2 ^ twoFactorsGo n)) := by
            rw [hp]; ring
    calc n / 2 ^ (twoFactorsGo n - 1)
        = (2 ^ (twoFactorsGo n - 1) * (2 * (n / 2 ^ twoFactorsGo n)))
            / 2 ^ (twoFactorsGo n - 1) := by rw [← h2]
      _ = 2 * (n / 2 ^ twoFactorsGo n) :=
          Int.mul_ediv_cancel_left _ (by positivity)

theorem specSubgraph_eq (n s : ℤ) :
    specSubgraph n s = (List.range ((n / ((2 : ℤ) ^ (specV2 n - 1))).toNat)).map
      (fun q : ℕ => s + (q : ℤ) * ((2 : ℤ) ^ (specV2 n - 1))) := rfl

theorem specSubgraph_length (n s : ℤ) :
    (specSubgraph n s).length = (n / ((2 : ℤ) ^ (specV2 n - 1))).toNat := by
  rw [specSubgraph]
  simp

theorem specSubgraph_get (n s : ℤ) (hn : 2 ≤ n) (he : 2 ∣ n) (z : ℤ) :
    _modulolist_get (specSubgraph n s) z
      = s + (z % (n / ((2 : ℤ) ^ (specV2 n - 1)))) * ((2 : ℤ) ^ (specV2 n - 1)) := by
  obtain ⟨ht1, hrdvd, hL2m, hm1, hodd⟩ := regimeB_facts n hn he
  have hLpos : (0 : ℤ) < n / ((2 : ℤ) ^ (specV2 n - 1)) := by omega
  have hlen : ((specSubgraph n s).length : ℤ) = n / ((2 : ℤ) ^ (specV2 n - 1)) := by
    rw [specSubgraph_length]
    omega
  have hz0 : 0 ≤ z % (n / ((2 : ℤ) ^ (specV2 n - 1))) :=
    Int.emod_nonneg z (by omega)
  have hz1 : z % (n / ((2 : ℤ) ^ (specV2 n - 1))) < n / ((2 : ℤ) ^ (specV2 n - 1)) :=
    Int.emod_lt_of_pos z hLpos
  rw [_modulolist_get, hlen]
  have hidx : (z % (n / ((2 : ℤ) ^ (specV2 n - 1)))).toNat < (specSubgraph n s).length := by
    rw [specSubgraph_length]
    omega
  rw [List.getD_eq_getElem _ 0 hidx]
  have hidx2 : (z % (n / ((2 : ℤ) ^ (specV2 n - 1)))).toNat
      < (List.range ((n / ((2 : ℤ) ^ (specV2 n - 1))).toNat)).length := by
    rw [List.length_range]
    omega
  rw [List.getElem_of_eq (specSubgraph_eq n s) hidx, List.getElem_map,
    List.getElem_range]
  congr 1
  rw [Int.toNat_of_nonneg hz0]

theorem two_flatMap_length (f g : ℕ → ℤ) (len : ℕ) :
    ((List.range len).flatMap (fun d => [f d, g d])).length = 2 * len := by
  induction len with
  | zero => rfl
  | succ len ih =>
    rw [List.range_succ, List.flatMap_append, List.length_append, ih]
    simp only [List.flatMap_cons, List.flatMap_nil, List.append_nil,
      List.length_cons, List.length_nil]
    omega

theorem eList_shift_perm (m : ℤ) (hm : 1 ≤ m) (idx : ℤ) :
    ((0 :: m :: (List.range (m.toNat - 1)).flatMap
        (fun dd => [(dd : ℤ) + 1, 2 * m - (dd : ℤ) - 1])).map
      (fun e => (idx + e) % (2 * m))).Perm (pyRange 0 (2 * m)) := by
  have hL : (0 : ℤ) < 2 * m := by omega
  have hmemE : ∀ e ∈ (0 :: m :: (List.range (m.toNat - 1)).flatMap
      (fun dd => [(dd : ℤ) + 1, 2 * m - (dd : ℤ) - 1])), 0 ≤ e ∧ e < 2 * m := by
    intro e hememb
    simp only [List.mem_cons, List.mem_flatMap, List.mem_range] at hememb
    rcases hememb with rfl | rfl | ⟨dd, hdd, hin⟩
    · omega
    · omega
    · simp only [List.mem_cons, List.not_mem_nil, or_false] at hin
      rcases hin with rfl | rfl <;> omega
  apply perm_of_nodup_subset_length
  · apply List.Nodup.map_on
    · intro x hx y hy hf
      have hx' := hmemE x hx
      have hy' := hmemE y hy
      have hdvd : (2 * m) ∣ x - y := by
        have h1 := Int.emod_eq_emod_iff_emod_sub_eq_zero.mp hf
        have h2 : idx + x - (idx + y) = x - y := by ring
        rw [h2] at h1
        exact Int.dvd_of_emod_eq_zero h1
      have := Int.eq_zero_of_abs_lt_dvd hdvd (by rw [abs_lt]; omega)
      omega
    · rw [List.nodup_cons, List.nodup_cons]
      refine ⟨?_, ?_, ?_⟩
      · intro hc
        simp only [List.mem_cons, List.mem_flatMap, List.mem_range] at hc
        rcases hc with hc | ⟨dd, hdd, hin⟩
        · omega
        · simp only [List.mem_cons, List.not_mem_nil, or_false] at hin
          rcases hin with hc | hc <;> omega
      · intro hc
        rw [List.mem_flatMap] at hc
        obtain ⟨dd, hdd, hin⟩ := hc
        rw [List.mem_range] at hdd
        simp only [List.mem_cons, List.not_mem_nil, or_false] at hin
        rcases hin with hc | hc <;> omega
      · rw [List.nodup_flatMap]
        constructor
        · intro dd hdd
          rw [List.mem_range] at hdd
          simp only [List.nodup_cons, List.mem_cons, List.not_mem_nil,
            List.nodup_nil, or_false, and_true, not_false_iff]
          omega
        · refine List.Pairwise.imp_of_mem ?_ (List.nodup_range _)
          intro dd dd' hdd hdd' hne
          rw [List.mem_range] at hdd hdd'
          intro x hx hx'
          simp only [List.mem_cons, List.not_mem_nil, or_false] at hx hx'
          rcases hx with rfl | rfl <;> rcases hx' with h | h <;> omega
  · intro x hx
    rw [List.mem_map] at hx
    obtain ⟨e, he, rfl⟩ := hx
    rw [mem_pyRange]
    refine ⟨Int.emod_nonneg _ (by omega), ?_⟩
    have := Int.emod_lt_of_pos (idx + e) hL
    omega
  · rw [pyRange_length, List.length_map]
    simp only [List.length_cons]
    rw [two_flatMap_length]
    omega

theorem pairEndpoints_cons (p : ℤ × ℤ) (l : List (ℤ × ℤ)) :
    pairEndpoints (p :: l) = p.1 :: p.2 :: pairEndpoints l := rfl

theorem flatMap_congr_left {α β : Type} (l : List α) (f g : α → List β)
    (h : ∀ a ∈ l, f a = g a) : l.flatMap f = l.flatMap g := by
  induction l with
  | nil => rfl
  | cons a l ih =>
    rw [List.flatMap_cons, List.flatMap_cons, h a (List.mem_cons_self a l),
      ih (fun a ha => h a (List.mem_cons_of_mem _ ha))]

theorem rotStep_endpoints_eq (n s : ℤ) (hn : 2 ≤ n) (he : 2 ∣ n) (idx : ℕ) :
    pairEndpoints (specRotStep (specSubgraph n s) idx)
      = (0 :: (n / (2 : ℤ) ^ specV2 n) ::
          (List.range ((n / (2 : ℤ) ^ specV2 n).toNat - 1)).flatMap
            (fun dd => [(dd : ℤ) + 1, 2 * (n / (2 : ℤ) ^ specV2 n) - (dd : ℤ) - 1])).map
        (fun e => s + (((idx : ℤ) + e) % (2 * (n / (2 : ℤ) ^ specV2 n)))
          * ((2 : ℤ) ^ (specV2 n - 1))) := by
  obtain ⟨ht1, hrdvd, hL2m, hm1, hodd⟩ := regimeB_facts n hn he
  have hhl : (specSubgraph n s).length / 2 = (n / (2 : ℤ) ^ specV2 n).toNat := by
    rw [specSubgraph_length]
    omega
  have hhlc : (((specSubgraph n s).length / 2 : ℕ) : ℤ) = n / (2 : ℤ) ^ specV2 n := by
    rw [hhl]
    omega
  simp only [specRotStep, pairEndpoints_cons, pairEndpoints_map_pairs]
  simp only [specSubgraph_get n s hn he, hL2m]
  rw [List.map_cons, List.map_cons, List.map_flatMap]
  congr 1
  congr 1
  · rw [hhlc]
  rw [hhl]
  apply flatMap_congr_left
  intro d hd
  rw [List.mem_range] at hd
  have e2 : ((idx : ℤ) - ((d : ℤ) + 1)) % (2 * (n / (2 : ℤ) ^ specV2 n))
      = ((idx : ℤ) + (2 * (n / (2 : ℤ) ^ specV2 n) - (d : ℤ) - 1))
        % (2 * (n / (2 : ℤ) ^ specV2 n)) := by
    rw [(by ring : (idx : ℤ) + (2 * (n / (2 : ℤ) ^ specV2 n) - (d : ℤ) - 1)
        = ((idx : ℤ) - ((d : ℤ) + 1)) + (2 * (n / (2 : ℤ) ^ specV2 n)) * 1),
      Int.add_mul_emod_self_left]
  simp only [List.map_cons, List.map_nil]
  rw [e2]

theorem rotStep_endpoints_perm (n s : ℤ) (hn : 2 ≤ n) (he : 2 ∣ n) (idx : ℕ) :
    (pairEndpoints (specRotStep (specSubgraph n s) idx)).Perm
      ((pyRange 0 (n / ((2 : ℤ) ^ (specV2 n - 1)))).map
        (fun w => s + w * ((2 : ℤ) ^ (specV2 n - 1)))) := by
  obtain ⟨ht1, hrdvd, hL2m, hm1, hodd⟩ := regimeB_facts n hn he
  rw [rotStep_endpoints_eq n s hn he idx, hL2m]
  rw [show (fun e => s + (((idx : ℤ) + e) % (2 * (n / (2 : ℤ) ^ specV2 n)))
        * ((2 : ℤ) ^ (specV2 n - 1)))
      = (fun w => s + w * ((2 : ℤ) ^ (specV2 n - 1)))
        ∘ (fun e => ((idx : ℤ) + e) % (2 * (n / (2 : ℤ) ^ specV2 n))) from rfl]
  rw [← List.map_map]
  exact List.Perm.map _ (eList_shift_perm (n / (2 : ℤ) ^ specV2 n) hm1 idx)

theorem regimeB_matching_endpoints (n : ℤ) (hn : 2 ≤ n) (he : 2 ∣ n) (idx : ℕ) :
    (pairEndpoints (((pyRange 0 ((2 : ℤ) ^ (specV2 n - 1))).map
        (fun s => specRotStep (specSubgraph n s) idx)).flatten)).Perm
      (pyRange 0 n) := by
  obtain ⟨ht1, hrdvd, hL2m, hm1, hodd⟩ := regimeB_facts n hn he
  have hrpos : (0 : ℤ) < (2 : ℤ) ^ (specV2 n - 1) := by positivity
  have hLpos : (0 : ℤ) < n / ((2 : ℤ) ^ (specV2 n - 1)) := by omega
  have hrL : ((2 : ℤ) ^ (specV2 n - 1)) * (n / ((2 : ℤ) ^ (specV2 n - 1))) = n :=
    Int.mul_ediv_cancel' hrdvd
  rw [pairEndpoints_flatten, List.flatMap_map]
  refine (List.Perm.flatMap_left _
    (fun s _ => rotStep_endpoints_perm n s hn he idx)).trans ?_
  apply flatMap_pyRange_perm ((2 : ℤ) ^ (specV2 n - 1))
    (n / ((2 : ℤ) ^ (specV2 n - 1))) n
    (fun s w => s + w * ((2 : ℤ) ^ (specV2 n - 1))) hrpos hLpos hrL
  · intro s w hs0 hsr hw0 hwL
    constructor
    · positivity
    · have hwle : w * ((2 : ℤ) ^ (specV2 n - 1))
          ≤ (n / ((2 : ℤ) ^ (specV2 n - 1)) - 1) * ((2 : ℤ) ^ (specV2 n - 1)) :=
        mul_le_mul_of_nonneg_right (by omega) (le_of_lt hrpos)
      have hexp : (n / ((2 : ℤ) ^ (specV2 n - 1)) - 1) * ((2 : ℤ) ^ (specV2 n - 1))
          = n - (2 : ℤ) ^ (specV2 n - 1) := by
        rw [sub_mul, one_mul, mul_comm, hrL]
      omega
  · intro s w s' w' hs0 hsr hw0 hwL hs'0 hs'r hw'0 hw'L heq
    have hdvd : ((2 : ℤ) ^ (specV2 n - 1)) ∣ s - s' := by
      refine ⟨w' - w, ?_⟩
      linarith [heq]
    have hss : s = s' := by
      have := Int.eq_zero_of_abs_lt_dvd hdvd (by rw [abs_lt]; omega)
      omega
    subst hss
    refine ⟨rfl, ?_⟩
    have hww : (w - w') * ((2 : ℤ) ^ (specV2 n - 1)) = 0 := by linarith [heq]
    rcases mul_eq_zero.mp hww with h | h
    · omega
    · omega

theorem emod_eq_of_cong (L x y : ℤ) (hy0 : 0 ≤ y) (hyL : y < L)
    (hdvd : L ∣ x - y) : x % L = y := by
  have h := Int.emod_eq_emod_iff_emod_sub_eq_zero.mpr (Int.emod_eq_zero_of_dvd hdvd)
  rw [h, Int.emod_eq_of_lt hy0 hyL]

theorem specRegimeB_eq (n : ℤ) :
    specRegimeB n = (List.range ((n / ((2 : ℤ) ^ (specV2 n - 1))).toNat / 2)).map
      (fun idx => ((pyRange 0 ((2 : ℤ) ^ (specV2 n - 1))).map
        (fun s => specRotStep (specSubgraph n s) idx)).flatten) := rfl

theorem rotStep_diam_mem (n s : ℤ) (hn : 2 ≤ n) (he : 2 ∣ n) (idx : ℕ) :
    (s + ((idx : ℤ) % (2 * (n / (2 : ℤ) ^ specV2 n))) * ((2 : ℤ) ^ (specV2 n - 1)),
     s + (((idx : ℤ) + n / (2 : ℤ) ^ specV2 n) % (2 * (n / (2 : ℤ) ^ specV2 n)))
       * ((2 : ℤ) ^ (specV2 n - 1)))
      ∈ specRotStep (specSubgraph n s) idx := by
  obtain ⟨ht1, hrdvd, hL2m, hm1, hodd⟩ := regimeB_facts n hn he
  have hhlc : (((specSubgraph n s).length / 2 : ℕ) : ℤ) = n / (2 : ℤ) ^ specV2 n := by
    rw [specSubgraph_length]
    omega
  have h1 : s + ((idx : ℤ) % (2 * (n / (2 : ℤ) ^ specV2 n))) * ((2 : ℤ) ^ (specV2 n - 1))
      = _modulolist_get (specSubgraph n s) (idx : ℤ) := by
    rw [specSubgraph_get n s hn he, hL2m]
  have h2 : s + (((idx : ℤ) + n / (2 : ℤ) ^ specV2 n) % (2 * (n / (2 : ℤ) ^ specV2 n)))
        * ((2 : ℤ) ^ (specV2 n - 1))
      = _modulolist_get (specSubgraph n s)
          ((idx : ℤ) + (((specSubgraph n s).length / 2 : ℕ) : ℤ)) := by
    rw [specSubgraph_get n s hn he, hL2m, hhlc]
  rw [h1, h2, specRotStep]
  exact List.mem_cons_self _ _

theorem rotStep_sym_mem (n s : ℤ) (hn : 2 ≤ n) (he : 2 ∣ n) (idx : ℕ) (dd : ℕ)
    (hdd : dd < (n / (2 : ℤ) ^ specV2 n).toNat - 1) :
    (s + (((idx : ℤ) + ((dd : ℤ) + 1)) % (2 * (n / (2 : ℤ) ^ specV2 n)))
       * ((2 : ℤ) ^ (specV2 n - 1)),
     s + (((idx : ℤ) - ((dd : ℤ) + 1)) % (2 * (n / (2 : ℤ) ^ specV2 n)))
       * ((2 : ℤ) ^ (specV2 n - 1)))
      ∈ specRotStep (specSubgraph n s) idx := by
  obtain ⟨ht1, hrdvd, hL2m, hm1, hodd⟩ := regimeB_facts n hn he
  have hhl : (specSubgraph n s).length / 2 = (n / (2 : ℤ) ^ specV2 n).toNat := by
    rw [specSubgraph_length]
    omega
  have h1 : s + (((idx : ℤ) + ((dd : ℤ) + 1)) % (2 * (n / (2 : ℤ) ^ specV2 n)))
        * ((2 : ℤ) ^ (specV2 n - 1))
      = _modulolist_get (specSubgraph n s) ((idx : ℤ) + ((dd : ℤ) + 1)) := by
    rw [specSubgraph_get n s hn he, hL2m]
  have h2 : s + (((idx : ℤ) - ((dd : ℤ) + 1)) % (2 * (n / (2 : ℤ) ^ specV2 n)))
        * ((2 : ℤ) ^ (specV2 n - 1))
      = _modulolist_get (specSubgraph n s) ((idx : ℤ) - ((dd : ℤ) + 1)) := by
    rw [specSubgraph_get n s hn he, hL2m]
  rw [h1, h2, specRotStep]
  apply List.mem_cons_of_mem
  apply List.mem_map.mpr
  refine ⟨dd, List.mem_range.mpr ?_, rfl⟩
  rw [hhl]
  exact hdd

theorem regimeB_covers (n d a : ℤ) (hn : 2 ≤ n) (he : 2 ∣ n)
    (hd1 : 1 ≤ d) (hdn : d < n)
    (hcase : ((2 : ℤ) ^ specV2 n ∣ d) ∨ d = n / 2)
    (ha0 : 0 ≤ a) (hb : a + d < n) :
    ∃ M ∈ specRegimeB n, (a, a + d) ∈ M ∨ (a + d, a) ∈ M := by
  obtain ⟨ht1, hrdvd, hL2m, hm1, hodd⟩ := regimeB_facts n hn he
  have hrpos : (0 : ℤ) < (2 : ℤ) ^ (specV2 n - 1) := by positivity
  have hrL : (2 : ℤ) ^ (specV2 n - 1) * (n / (2 : ℤ) ^ (specV2 n - 1)) = n :=
    Int.mul_ediv_cancel' hrdvd
  have hT2r : (2 : ℤ) ^ specV2 n = 2 * 2 ^ (specV2 n - 1) := by
    rw [← pow_succ']
    congr 1
    omega
  have hn2m : n = (2 : ℤ) ^ (specV2 n - 1) * (2 * (n / (2 : ℤ) ^ specV2 n)) := by
    rw [← hL2m]
    exact hrL.symm
  have hud : ∃ u : ℤ, d = (2 : ℤ) ^ (specV2 n - 1) * u ∧
      (u = n / (2 : ℤ) ^ specV2 n ∨ 2 ∣ u) := by
    rcases hcase with ⟨v, hv⟩ | hd2
    · exact ⟨2 * v, by rw [hv, hT2r]; ring, Or.inr ⟨v, rfl⟩⟩
    · refine ⟨n / (2 : ℤ) ^ specV2 n, ?_, Or.inl rfl⟩
      have h5 : 2 * (n / 2)
          = 2 * ((2 : ℤ) ^ (specV2 n - 1) * (n / (2 : ℤ) ^ specV2 n)) := by
        calc 2 * (n / 2) = n := by omega
          _ = (2 : ℤ) ^ (specV2 n - 1) * (2 * (n / (2 : ℤ) ^ specV2 n)) := hn2m
          _ = 2 * ((2 : ℤ) ^ (specV2 n - 1) * (n / (2 : ℤ) ^ specV2 n)) := by ring
      have h6 : n / 2 = (2 : ℤ) ^ (specV2 n - 1) * (n / (2 : ℤ) ^ specV2 n) := by
        linarith
      rw [hd2]
      exact h6
  obtain ⟨u, hdu, hucase⟩ := hud
  have hu1 : 1 ≤ u := by nlinarith
  have hsplit := Int.emod_add_ediv a ((2 : ℤ) ^ (specV2 n - 1))
  have hs0 : 0 ≤ a % (2 : ℤ) ^ (specV2 n - 1) := Int.emod_nonneg a (by omega)
  have hsr : a % (2 : ℤ) ^ (specV2 n - 1) < (2 : ℤ) ^ (specV2 n - 1) :=
    Int.emod_lt_of_pos a hrpos
  have hqa0 : 0 ≤ a / (2 : ℤ) ^ (specV2 n - 1) :=
    Int.ediv_nonneg ha0 (le_of_lt hrpos)
  have ha_eq : a = a % (2 : ℤ) ^ (specV2 n - 1)
      + (a / (2 : ℤ) ^ (specV2 n - 1)) * (2 : ℤ) ^ (specV2 n - 1) := by
    nlinarith [hsplit]
  have hqb : a / (2 : ℤ) ^ (specV2 n - 1) + u < 2 * (n / (2 : ℤ) ^ specV2 n) := by
    have hblt : (a / (2 : ℤ) ^ (specV2 n - 1) + u) * (2 : ℤ) ^ (specV2 n - 1)
        < (2 * (n / (2 : ℤ) ^ specV2 n)) * (2 : ℤ) ^ (specV2 n - 1) := by
      nlinarith [ha_eq, hn2m, hdu, hb, hs0]
    exact lt_of_mul_lt_mul_right hblt (le_of_lt hrpos)
  have hhl2 : (n / ((2 : ℤ) ^ (specV2 n - 1))).toNat / 2
      = (n / (2 : ℤ) ^ specV2 n).toNat := by omega
  have hMmem : ∀ idx : ℕ, idx < (n / ((2 : ℤ) ^ (specV2 n - 1))).toNat / 2 →
      ∀ p : ℤ × ℤ, p ∈ specRotStep (specSubgraph n (a % (2 : ℤ) ^ (specV2 n - 1))) idx →
      ∃ M ∈ specRegimeB n, p ∈ M := by
    intro idx hidx p hp
    refine ⟨((pyRange 0 ((2 : ℤ) ^ (specV2 n - 1))).map
      (fun s => specRotStep (specSubgraph n s) idx)).flatten, ?_, ?_⟩
    · rw [specRegimeB_eq]
      exact List.mem_map.mpr ⟨idx, List.mem_range.mpr hidx, rfl⟩
    · exact List.mem_flatten.mpr
        ⟨specRotStep (specSubgraph n (a % (2 : ℤ) ^ (specV2 n - 1))) idx,
         List.mem_map.mpr ⟨a % (2 : ℤ) ^ (specV2 n - 1),
           mem_pyRange.mpr ⟨hs0, hsr⟩, rfl⟩, hp⟩
  have hval : ∀ q : ℤ, a % (2 : ℤ) ^ (specV2 n - 1)
      + (a / (2 : ℤ) ^ (specV2 n - 1) + q) * (2 : ℤ) ^ (specV2 n - 1)
      = a + (2 : ℤ) ^ (specV2 n - 1) * q := by
    intro q
    nlinarith [ha_eq]
  rcases hucase with hum | hu2
  · -- d = n/2: the diametric pair at idx = a / r
    have hqam : a / (2 : ℤ) ^ (specV2 n - 1) < n / (2 : ℤ) ^ specV2 n := by omega
    have hidxc : ((a / (2 : ℤ) ^ (specV2 n - 1)).toNat : ℤ)
        = a / (2 : ℤ) ^ (specV2 n - 1) := by omega
    have hdiam := rotStep_diam_mem n (a % (2 : ℤ) ^ (specV2 n - 1)) hn he
      (a / (2 : ℤ) ^ (specV2 n - 1)).toNat
    rw [hidxc] at hdiam
    rw [Int.emod_eq_of_lt hqa0 (by omega)] at hdiam
    rw [Int.emod_eq_of_lt (by omega : (0 : ℤ) ≤ a / (2 : ℤ) ^ (specV2 n - 1)
        + n / (2 : ℤ) ^ specV2 n) (by omega)] at hdiam
    obtain ⟨M, hM, hpM⟩ := hMmem (a / (2 : ℤ) ^ (specV2 n - 1)).toNat (by omega) _ hdiam
    refine ⟨M, hM, Or.inl ?_⟩
    have hfst : a % (2 : ℤ) ^ (specV2 n - 1)
        + (a / (2 : ℤ) ^ (specV2 n - 1)) * (2 : ℤ) ^ (specV2 n - 1) = a := ha_eq.symm
    have hsnd : a % (2 : ℤ) ^ (specV2 n - 1)
        + (a / (2 : ℤ) ^ (specV2 n - 1) + n / (2 : ℤ) ^ specV2 n)
          * (2 : ℤ) ^ (specV2 n - 1) = a + d := by
      rw [hval (n / (2 : ℤ) ^ specV2 n), hdu, hum]
    rw [hfst, hsnd] at hpM
    exact hpM
  · obtain ⟨v, hv⟩ := hu2
    have hv1 : 1 ≤ v := by omega
    have hvm : v < n / (2 : ℤ) ^ specV2 n := by omega
    have hw0 : 0 ≤ (a / (2 : ℤ) ^ (specV2 n - 1) + v) % (2 * (n / (2 : ℤ) ^ specV2 n)) :=
      Int.emod_nonneg _ (by omega)
    have hwL : (a / (2 : ℤ) ^ (specV2 n - 1) + v) % (2 * (n / (2 : ℤ) ^ specV2 n))
        < 2 * (n / (2 : ℤ) ^ specV2 n) := Int.emod_lt_of_pos _ (by omega)
    have hwcong : (2 * (n / (2 : ℤ) ^ specV2 n)) ∣
        (a / (2 : ℤ) ^ (specV2 n - 1) + v)
        - (a / (2 : ℤ) ^ (specV2 n - 1) + v) % (2 * (n / (2 : ℤ) ^ specV2 n)) := by
      have h := Int.emod_add_ediv (a / (2 : ℤ) ^ (specV2 n - 1) + v)
        (2 * (n / (2 : ℤ) ^ specV2 n))
      exact ⟨(a / (2 : ℤ) ^ (specV2 n - 1) + v) / (2 * (n / (2 : ℤ) ^ specV2 n)),
        by linarith⟩
    rcases lt_or_ge ((a / (2 : ℤ) ^ (specV2 n - 1) + v) % (2 * (n / (2 : ℤ) ^ specV2 n)))
      (n / (2 : ℤ) ^ specV2 n) with hwm | hwm
    · -- w < m : pair (a+d, a) at idx = w, d-index v-1
      have hidxc : (((a / (2 : ℤ) ^ (specV2 n - 1) + v)
          % (2 * (n / (2 : ℤ) ^ specV2 n))).toNat : ℤ)
          = (a / (2 : ℤ) ^ (specV2 n - 1) + v) % (2 * (n / (2 : ℤ) ^ specV2 n)) := by
        omega
      have hddc : (((v - 1).toNat : ℤ) + 1) = v := by omega
      have hsym := rotStep_sym_mem n (a % (2 : ℤ) ^ (specV2 n - 1)) hn he
        ((a / (2 : ℤ) ^ (specV2 n - 1) + v) % (2 * (n / (2 : ℤ) ^ specV2 n))).toNat
        (v - 1).toNat (by omega)
      rw [hidxc, hddc] at hsym
      have e1 : ((a / (2 : ℤ) ^ (specV2 n - 1) + v) % (2 * (n / (2 : ℤ) ^ specV2 n)) + v)
          % (2 * (n / (2 : ℤ) ^ specV2 n)) = a / (2 : ℤ) ^ (specV2 n - 1) + u := by
        apply emod_eq_of_cong _ _ _ (by omega) (by omega)
        have h2 : ((a / (2 : ℤ) ^ (specV2 n - 1) + v)
            % (2 * (n / (2 : ℤ) ^ specV2 n)) + v)
            - (a / (2 : ℤ) ^ (specV2 n - 1) + u)
            = -((a / (2 : ℤ) ^ (specV2 n - 1) + v)
              - (a / (2 : ℤ) ^ (specV2 n - 1) + v)
                % (2 * (n / (2 : ℤ) ^ specV2 n))) := by
          rw [hv]
          ring
        rw [h2]
        exact dvd_neg.mpr hwcong
      have e2 : ((a / (2 : ℤ) ^ (specV2 n - 1) + v) % (2 * (n / (2 : ℤ) ^ specV2 n)) - v)
          % (2 * (n / (2 : ℤ) ^ specV2 n)) = a / (2 : ℤ) ^ (specV2 n - 1) := by
        apply emod_eq_of_cong _ _ _ hqa0 (by omega)
        have h2 : ((a / (2 : ℤ) ^ (specV2 n - 1) + v)
            % (2 * (n / (2 : ℤ) ^ specV2 n)) - v)
            - a / (2 : ℤ) ^ (specV2 n - 1)
            = -((a / (2 : ℤ) ^ (specV2 n - 1) + v)
              - (a / (2 : ℤ) ^ (specV2 n - 1) + v)
                % (2 * (n / (2 : ℤ) ^ specV2 n))) := by
          ring
        rw [h2]
        exact dvd_neg.mpr hwcong
      rw [e1, e2] at hsym
      obtain ⟨M, hM, hpM⟩ := hMmem _ (by omega) _ hsym
      refine ⟨M, hM, Or.inr ?_⟩
      have hfst := hval u
      rw [← hdu] at hfst
      have hsnd : a % (2 : ℤ) ^ (specV2 n - 1)
          + (a / (2 : ℤ) ^ (specV2 n - 1)) * (2 : ℤ) ^ (specV2 n - 1) = a := ha_eq.symm
      rw [hfst, hsnd] at hpM
      exact hpM
    · -- w ≥ m : pair (a, a+d) at idx = w - m, d-index m-v-1
      have hidxc : ((((a / (2 : ℤ) ^ (specV2 n - 1) + v)
          % (2 * (n / (2 : ℤ) ^ specV2 n))) - (n / (2 : ℤ) ^ specV2 n)).toNat : ℤ)
          = ((a / (2 : ℤ) ^ (specV2 n - 1) + v)
            % (2 * (n / (2 : ℤ) ^ specV2 n))) - (n / (2 : ℤ) ^ specV2 n) := by
        omega
      have hddc : ((((n / (2 : ℤ) ^ specV2 n) - v - 1).toNat : ℤ) + 1)
          = (n / (2 : ℤ) ^ specV2 n) - v := by omega
      have hsym := rotStep_sym_mem n (a % (2 : ℤ) ^ (specV2 n - 1)) hn he
        (((a / (2 : ℤ) ^ (specV2 n - 1) + v)
          % (2 * (n / (2 : ℤ) ^ specV2 n))) - (n / (2 : ℤ) ^ specV2 n)).toNat
        ((n / (2 : ℤ) ^ specV2 n) - v - 1).toNat (by omega)
      rw [hidxc, hddc] at hsym
      have e1 : (((a / (2 : ℤ) ^ (specV2 n - 1) + v)
          % (2 * (n / (2 : ℤ) ^ specV2 n)) - (n / (2 : ℤ) ^ specV2 n))
          + ((n / (2 : ℤ) ^ specV2 n) - v))
          % (2 * (n / (2 : ℤ) ^ specV2 n)) = a / (2 : ℤ) ^ (specV2 n - 1) := by
        apply emod_eq_of_cong _ _ _ hqa0 (by omega)
        have h2 : (((a / (2 : ℤ) ^ (specV2 n - 1) + v)
            % (2 * (n / (2 : ℤ) ^ specV2 n)) - (n / (2 : ℤ) ^ specV2 n))
            + ((n / (2 : ℤ) ^ specV2 n) - v))
            - a / (2 : ℤ) ^ (specV2 n - 1)
            = -((a / (2 : ℤ) ^ (specV2 n - 1) + v)
              - (a / (2 : ℤ) ^ (specV2 n - 1) + v)
                % (2 * (n / (2 : ℤ) ^ specV2 n))) := by
          ring
        rw [h2]
        exact dvd_neg.mpr hwcong
      have e2 : (((a / (2 : ℤ) ^ (specV2 n - 1) + v)
          % (2 * (n / (2 : ℤ) ^ specV2 n)) - (n / (2 : ℤ) ^ specV2 n))
          - ((n / (2 : ℤ) ^ specV2 n) - v))
          % (2 * (n / (2 : ℤ) ^ specV2 n)) = a / (2 : ℤ) ^ (specV2 n - 1) + u := by
        apply emod_eq_of_cong _ _ _ (by omega) (by omega)
        have h2 : (((a / (2 : ℤ) ^ (specV2 n - 1) + v)
            % (2 * (n / (2 : ℤ) ^ specV2 n)) - (n / (2 : ℤ) ^ specV2 n))
            - ((n / (2 : ℤ) ^ specV2 n) - v))
            - (a / (2 : ℤ) ^ (specV2 n - 1) + u)
            = -((a / (2 : ℤ) ^ (specV2 n - 1) + v)
              - (a / (2 : ℤ) ^ (specV2 n - 1) + v)
                % (2 * (n / (2 : ℤ) ^ specV2 n)))
              - 2 * (n / (2 : ℤ) ^ specV2 n) := by
          rw [hv]
          ring
        rw [h2]
        exact dvd_sub (dvd_neg.mpr hwcong) dvd_rfl
      rw [e1, e2] at hsym
      obtain ⟨M, hM, hpM⟩ := hMmem _ (by omega) _ hsym
      refine ⟨M, hM, Or.inl ?_⟩
      have hfst : a % (2 : ℤ) ^ (specV2 n - 1)
          + (a / (2 : ℤ) ^ (specV2 n - 1)) * (2 : ℤ) ^ (specV2 n - 1) = a := ha_eq.symm
      have hsnd := hval u
      rw [← hdu] at hsnd
      rw [hfst, hsnd] at hpM
      exact hpM

theorem regimeB_val_bound (n s w : ℤ) (hn : 2 ≤ n) (he : 2 ∣ n)
    (hs0 : 0 ≤ s) (hsr : s < (2 : ℤ) ^ (specV2 n - 1))
    (hw0 : 0 ≤ w) (hwL : w < 2 * (n / (2 : ℤ) ^ specV2 n)) :
    0 ≤ s + w * (2 : ℤ) ^ (specV2 n - 1) ∧
      s + w * (2 : ℤ) ^ (specV2 n - 1) < n := by
  obtain ⟨ht1, hrdvd, hL2m, hm1, hodd⟩ := regimeB_facts n hn he
  have hrpos : (0 : ℤ) < (2 : ℤ) ^ (specV2 n - 1) := by positivity
  have hn2m : n = (2 : ℤ) ^ (specV2 n - 1) * (2 * (n / (2 : ℤ) ^ specV2 n)) := by
    rw [← hL2m]
    exact (Int.mul_ediv_cancel' hrdvd).symm
  constructor
  · positivity
  · have hwle : w * (2 : ℤ) ^ (specV2 n - 1)
        ≤ (2 * (n / (2 : ℤ) ^ specV2 n) - 1) * (2 : ℤ) ^ (specV2 n - 1) :=
      mul_le_mul_of_nonneg_right (by omega) (le_of_lt hrpos)
    nlinarith [hn2m]

theorem mem_specRotStep_elim (n s : ℤ) (hn : 2 ≤ n) (he : 2 ∣ n) (idx : ℕ)
    (p : ℤ × ℤ) (hp : p ∈ specRotStep (specSubgraph n s) idx) :
    ∃ z z' : ℤ,
      p = (s + (z % (2 * (n / (2 : ℤ) ^ specV2 n))) * (2 : ℤ) ^ (specV2 n - 1),
           s + (z' % (2 * (n / (2 : ℤ) ^ specV2 n))) * (2 : ℤ) ^ (specV2 n - 1)) ∧
      ¬ ((2 * (n / (2 : ℤ) ^ specV2 n)) ∣ z - z') := by
  obtain ⟨ht1, hrdvd, hL2m, hm1, hodd⟩ := regimeB_facts n hn he
  have hhl : (specSubgraph n s).length / 2 = (n / (2 : ℤ) ^ specV2 n).toNat := by
    rw [specSubgraph_length]
    omega
  have hhlc : (((specSubgraph n s).length / 2 : ℕ) : ℤ) = n / (2 : ℤ) ^ specV2 n := by
    rw [hhl]
    omega
  rw [specRotStep, List.mem_cons] at hp
  rcases hp with hp | hp
  · refine ⟨(idx : ℤ), (idx : ℤ) + (n / (2 : ℤ) ^ specV2 n), ?_, ?_⟩
    · rw [hp]
      rw [specSubgraph_get n s hn he, specSubgraph_get n s hn he, hL2m, hhlc]
    · intro hc
      have h2 : (idx : ℤ) - ((idx : ℤ) + n / (2 : ℤ) ^ specV2 n)
          = -(n / (2 : ℤ) ^ specV2 n) := by ring
      rw [h2] at hc
      have := Int.eq_zero_of_abs_lt_dvd hc (by rw [abs_lt]; omega)
      omega
  · rw [List.mem_map] at hp
    obtain ⟨dd, hdd, hpeq⟩ := hp
    rw [List.mem_range, hhl] at hdd
    refine ⟨(idx : ℤ) + ((dd : ℤ) + 1), (idx : ℤ) - ((dd : ℤ) + 1), ?_, ?_⟩
    · rw [← hpeq]
      rw [specSubgraph_get n s hn he, specSubgraph_get n s hn he, hL2m]
    · intro hc
      have h2 : ((idx : ℤ) + ((dd : ℤ) + 1)) - ((idx : ℤ) - ((dd : ℤ) + 1))
          = 2 * ((dd : ℤ) + 1) := by ring
      rw [h2] at hc
      have := Int.eq_zero_of_abs_lt_dvd hc (by rw [abs_lt]; omega)
      omega

theorem regimeB_valid (n s : ℤ) (hn : 2 ≤ n) (he : 2 ∣ n) (idx : ℕ)
    (hs0 : 0 ≤ s) (hsr : s < (2 : ℤ) ^ (specV2 n - 1))
    (p : ℤ × ℤ) (hp : p ∈ specRotStep (specSubgraph n s) idx) :
    p.1 ≠ p.2 ∧ 0 ≤ p.1 ∧ p.1 < n ∧ 0 ≤ p.2 ∧ p.2 < n := by
  obtain ⟨ht1, hrdvd, hL2m, hm1, hodd⟩ := regimeB_facts n hn he
  have hLpos : (0 : ℤ) < 2 * (n / (2 : ℤ) ^ specV2 n) := by omega
  obtain ⟨z, z', hpeq, hnd⟩ := mem_specRotStep_elim n s hn he idx p hp
  have hz0 := Int.emod_nonneg z (by omega : (2 * (n / (2 : ℤ) ^ specV2 n)) ≠ 0)
  have hzL := Int.emod_lt_of_pos z hLpos
  have hz'0 := Int.emod_nonneg z' (by omega : (2 * (n / (2 : ℤ) ^ specV2 n)) ≠ 0)
  have hz'L := Int.emod_lt_of_pos z' hLpos
  have hb1 := regimeB_val_bound n s (z % (2 * (n / (2 : ℤ) ^ specV2 n))) hn he
    hs0 hsr hz0 hzL
  have hb2 := regimeB_val_bound n s (z' % (2 * (n / (2 : ℤ) ^ specV2 n))) hn he
    hs0 hsr hz'0 hz'L
  rw [hpeq]
  refine ⟨?_, hb1.1, hb1.2, hb2.1, hb2.2⟩
  intro hc
  simp only at hc
  have hww : z % (2 * (n / (2 : ℤ) ^ specV2 n))
      = z' % (2 * (n / (2 : ℤ) ^ specV2 n)) := by
    have hrpos : (0 : ℤ) < (2 : ℤ) ^ (specV2 n - 1) := by positivity
    have h3 : (z % (2 * (n / (2 : ℤ) ^ specV2 n))
        - z' % (2 * (n / (2 : ℤ) ^ specV2 n))) * (2 : ℤ) ^ (specV2 n - 1) = 0 := by
      linarith [hc]
    rcases mul_eq_zero.mp h3 with h | h
    · omega
    · omega
  apply hnd
  have h4 := Int.emod_eq_emod_iff_emod_sub_eq_zero.mp hww
  exact Int.dvd_of_emod_eq_zero h4

theorem keep_imp_C_even (n i : ℤ) (hn : 2 ≤ n) (he : 2 ∣ n) (hi1 : 1 ≤ i)
    (hk : ¬ ((2 : ℤ) ^ specV2 n ∣ i)) :
    2 ∣ n / (Int.gcd n i : ℤ) := by
  by_contra hodd
  have hgpos : (0 : ℤ) < (Int.gcd n i : ℤ) := by
    have := Int.gcd_pos_of_ne_zero_left i (by omega : n ≠ 0)
    exact_mod_cast this
  have hgn : ((Int.gcd n i : ℤ)) ∣ n := Int.gcd_dvd_left
  have hgi : ((Int.gcd n i : ℤ)) ∣ i := Int.gcd_dvd_right
  have hgC : (Int.gcd n i : ℤ) * (n / (Int.gcd n i : ℤ)) = n :=
    Int.mul_ediv_cancel' hgn
  -- 2 is coprime to the odd cofactor n / gcd
  have hcop2 : IsCoprime (2 : ℤ) (n / (Int.gcd n i : ℤ)) := by
    rw [Int.isCoprime_iff_gcd_eq_one]
    have hd2 : Int.gcd 2 (n / (Int.gcd n i : ℤ)) ∣ 2 := by
      have h := (Int.gcd_dvd_left :
        ((Int.gcd 2 (n / (Int.gcd n i : ℤ)) : ℕ) : ℤ) ∣ 2)
      exact_mod_cast h
    rcases (Nat.Prime.eq_one_or_self_of_dvd Nat.prime_two _ hd2) with h1 | h2
    · exact h1
    · exfalso
      apply hodd
      have h := (Int.gcd_dvd_right :
        ((Int.gcd 2 (n / (Int.gcd n i : ℤ)) : ℕ) : ℤ) ∣ n / (Int.gcd n i : ℤ))
      rw [h2] at h
      exact_mod_cast h
  have hcopT : IsCoprime ((2 : ℤ) ^ specV2 n) (n / (Int.gcd n i : ℤ)) :=
    IsCoprime.pow_left hcop2
  have hTn : ((2 : ℤ) ^ specV2 n) ∣ n := by
    rw [specV2_eq_twoFactorsGo n (by omega)]
    exact (twoFactorsGo_spec n (by omega)).1
  have hTg : ((2 : ℤ) ^ specV2 n) ∣ (Int.gcd n i : ℤ) := by
    apply hcopT.dvd_of_dvd_mul_right
    rw [hgC]
    exact hTn
  exact hk (dvd_trans hTg hgi)

theorem multiples_filter_length (n T : ℤ) (hn : 2 ≤ n) (hT1 : 1 < T)
    (hTn : T ∣ n) :
    ((pyRange 1 n).filter (fun i => decide (T ∣ i))).length = (n / T - 1).toNat := by
  have hTpos : (0 : ℤ) < T := by omega
  have hTm : T * (n / T) = n := Int.mul_ediv_cancel' hTn
  have hnT1 : 1 ≤ n / T := by nlinarith
  have hsub : n - T = T * (n / T - 1) := by rw [mul_sub, hTm]; ring
  have key : ((pyRange 1 n).filter (fun i => decide (T ∣ i))).Perm
      ((pyRange 1 (n / T)).map (fun q => q * T)) := by
    have h1 : ((pyRange 1 n).filter (fun i => decide (T ∣ i))).Nodup :=
      (pyRange_nodup 1 n).filter _
    have h2 : ((pyRange 1 (n / T)).map (fun q => q * T)).Nodup :=
      List.Nodup.map_on
        (fun x _ y _ hxy => by
          have := mul_right_cancel₀ (by omega : T ≠ 0) hxy
          exact this)
        (pyRange_nodup 1 (n / T))
    have hs1 : ((pyRange 1 n).filter (fun i => decide (T ∣ i)))
        ⊆ ((pyRange 1 (n / T)).map (fun q => q * T)) := by
      intro x hx
      rw [List.mem_filter, mem_pyRange] at hx
      obtain ⟨⟨hx1, hxn⟩, hxd⟩ := hx
      rw [decide_eq_true_iff] at hxd
      rw [List.mem_map]
      refine ⟨x / T, ?_, Int.ediv_mul_cancel hxd⟩
      rw [mem_pyRange]
      constructor
      · have hxT : T ≤ x := Int.le_of_dvd (by omega) hxd
        have : 1 * T ≤ x := by omega
        calc (1 : ℤ) = T / T := (Int.ediv_self (by omega)).symm
          _ ≤ x / T := Int.ediv_le_ediv hTpos (by omega)
      · have hxle : x ≤ n - T := by
          rcases hxd with ⟨c, hc⟩
          rcases hTn with ⟨cn, hcn⟩
          have : c < cn := by nlinarith
          nlinarith
        calc x / T ≤ (n - T) / T := Int.ediv_le_ediv hTpos hxle
          _ = n / T - 1 := by rw [hsub, Int.mul_ediv_cancel_left _ (by omega)]
          _ < n / T := by omega
    have hs2 : ((pyRange 1 (n / T)).map (fun q => q * T))
        ⊆ ((pyRange 1 n).filter (fun i => decide (T ∣ i))) := by
      intro x hx
      rw [List.mem_map] at hx
      obtain ⟨q, hq, rfl⟩ := hx
      rw [mem_pyRange] at hq
      rw [List.mem_filter, mem_pyRange]
      refine ⟨⟨?_, ?_⟩, by rw [decide_eq_true_iff]; exact ⟨q, mul_comm q T⟩⟩
      · nlinarith
      · have : q * T ≤ (n / T - 1) * T :=
          mul_le_mul_of_nonneg_right (by omega) (le_of_lt hTpos)
        nlinarith
    exact (h1.subperm hs1).perm_of_length_le ((h2.subperm hs2).length_le)
  rw [key.length_eq, List.length_map, pyRange_length]

theorem specRegimeB_length (n : ℤ) (hn : 2 ≤ n) (he : 2 ∣ n) :
    (specRegimeB n).length = (n / (2 : ℤ) ^ specV2 n).toNat := by
  obtain ⟨ht1, hrdvd, hL2m, hm1, hodd⟩ := regimeB_facts n hn he
  rw [specRegimeB_eq, List.length_map, List.length_range]
  omega

theorem specRegimeA_length (n : ℤ) (hn : 2 ≤ n) (he : 2 ∣ n) :
    (specRegimeA n).length
      = (n - 1).toNat - (n / (2 : ℤ) ^ specV2 n - 1).toNat - 1 := by
  obtain ⟨ht1, hrdvd, hL2m, hm1, hodd⟩ := regimeB_facts n hn he
  have hv2 := specV2_eq_twoFactorsGo n (by omega)
  have hTn : ((2 : ℤ) ^ specV2 n) ∣ n := by
    rw [hv2]
    exact (twoFactorsGo_spec n (by omega)).1
  have hT1 : (1 : ℤ) < 2 ^ specV2 n := by
    calc (1 : ℤ) < 2 := by omega
      _ = 2 ^ (1 : ℕ) := (pow_one 2).symm
      _ ≤ 2 ^ specV2 n := pow_le_pow_right (by omega) (by omega)
  have hnotTnh : ¬ ((2 : ℤ) ^ specV2 n ∣ n / 2) := by
    intro hc
    have h2n : n = 2 * (n / 2) := by omega
    rcases hc with ⟨c, hc⟩
    apply (twoFactorsGo_spec n (by omega)).2
    refine ⟨c, ?_⟩
    calc n = 2 * (n / 2) := h2n
      _ = 2 * (2 ^ specV2 n * c) := by rw [hc]
      _ = 2 ^ (twoFactorsGo n + 1) * c := by
          rw [← hv2, pow_succ]
          ring
  rw [specRegimeA, List.length_map]
  -- replace the conjunction filter by two nested filters
  have hff : (pyRange 1 n).filter (fun i =>
        decide (¬ ((2 : ℤ) ^ specV2 n ∣ i)) && decide (¬ (i = n / 2)))
      = ((pyRange 1 n).filter (fun i =>
          decide (¬ ((2 : ℤ) ^ specV2 n ∣ i)))).filter (fun i => decide (¬ (i = n / 2))) := by
    rw [List.filter_filter]
    apply List.filter_congr
    intro i _
    rw [Bool.and_comm]
  rw [hff]
  -- the inner filter: drop the multiples of 2^v2
  have hinner : ((pyRange 1 n).filter (fun i =>
      decide (¬ ((2 : ℤ) ^ specV2 n ∣ i)))).length
      = (n - 1).toNat - (n / (2 : ℤ) ^ specV2 n - 1).toNat := by
    have hsplitf := List.length_eq_length_filter_add
      (l := pyRange 1 n) (fun i => decide (¬ ((2 : ℤ) ^ specV2 n ∣ i)))
    have hnotnot : (pyRange 1 n).filter
        (fun i => !(decide (¬ ((2 : ℤ) ^ specV2 n ∣ i))))
        = (pyRange 1 n).filter (fun i => decide ((2 : ℤ) ^ specV2 n ∣ i)) := by
      apply List.filter_congr
      intro i _
      simp
    rw [hnotnot, multiples_filter_length n ((2 : ℤ) ^ specV2 n) hn hT1 hTn,
      pyRange_length] at hsplitf
    omega
  -- the outer filter: remove the single element n/2
  have hmem : n / 2 ∈ (pyRange 1 n).filter (fun i =>
      decide (¬ ((2 : ℤ) ^ specV2 n ∣ i))) := by
    rw [List.mem_filter, mem_pyRange]
    refine ⟨⟨by omega, by omega⟩, by rw [decide_eq_true_iff]; exact hnotTnh⟩
  have hnd : ((pyRange 1 n).filter (fun i =>
      decide (¬ ((2 : ℤ) ^ specV2 n ∣ i)))).Nodup := (pyRange_nodup 1 n).filter _
  have herase : ((pyRange 1 n).filter (fun i =>
        decide (¬ ((2 : ℤ) ^ specV2 n ∣ i)))).filter (fun i => decide (¬ (i = n / 2)))
      = ((pyRange 1 n).filter (fun i =>
        decide (¬ ((2 : ℤ) ^ specV2 n ∣ i)))).erase (n / 2) := by
    rw [List.Nodup.erase_eq_filter hnd]
    apply List.filter_congr
    intro i _
    rw [Bool.eq_iff_iff]
    simp [bne_iff_ne]
  rw [herase, List.length_erase_of_mem hmem, hinner]

theorem specMatchings_count (n : ℤ) (hn : 2 ≤ n) (he : 2 ∣ n) :
    (specRegimeA n ++ specRegimeB n).length = (n - 1).toNat := by
  obtain ⟨ht1, hrdvd, hL2m, hm1, hodd⟩ := regimeB_facts n hn he
  have hmlt : n / (2 : ℤ) ^ specV2 n < n := by
    have : n / (2 : ℤ) ^ (specV2 n - 1) ≤ n := by
      have := Int.mul_ediv_cancel' hrdvd
      nlinarith [pow_pos (by omega : (0:ℤ) < 2) (specV2 n - 1)]
    omega
  rw [List.length_append, specRegimeA_length n hn he, specRegimeB_length n hn he]
  omega

theorem matching_facts (n : ℤ) (hn : 2 ≤ n) (he : 2 ∣ n) (M : List (ℤ × ℤ))
    (hM : M ∈ specRegimeA n ++ specRegimeB n) :
    (pairEndpoints M).Perm (pyRange 0 n) ∧
    ∀ p ∈ M, p.1 ≠ p.2 ∧ 0 ≤ p.1 ∧ p.1 < n ∧ 0 ≤ p.2 ∧ p.2 < n := by
  rw [List.mem_append] at hM
  rcases hM with hA | hB
  · rw [specRegimeA, List.mem_map] at hA
    obtain ⟨i, hi, rfl⟩ := hA
    rw [List.mem_filter] at hi
    obtain ⟨hir, hkeep⟩ := hi
    rw [mem_pyRange] at hir
    have hknd : ¬ ((2 : ℤ) ^ specV2 n ∣ i) := by
      simp only [Bool.and_eq_true, decide_eq_true_eq] at hkeep
      exact hkeep.1
    have hCe := keep_imp_C_even n i hn he hir.1 hknd
    exact ⟨specOffsetMatching_endpoints n i hn hir.1 hir.2 hCe,
      fun p hp => specOffsetMatching_valid n i hn hir.1 hir.2 p hp⟩
  · rw [specRegimeB_eq, List.mem_map] at hB
    obtain ⟨idx, hidx, rfl⟩ := hB
    refine ⟨regimeB_matching_endpoints n hn he idx, ?_⟩
    intro p hp
    rw [List.mem_flatten] at hp
    obtain ⟨l, hl, hpl⟩ := hp
    rw [List.mem_map] at hl
    obtain ⟨s, hs, rfl⟩ := hl
    rw [mem_pyRange] at hs
    exact regimeB_valid n s hn he idx hs.1 hs.2 p hpl

/-! ## Claims C2 and C3: count and perfect-matching structure -/

/-- C3: for every even `n ≥ 2`, every emitted matching consists of exactly
`n/2` pairs, the two entries of each pair are distinct, and the endpoints of
the matching enumerate the vertex set `[0, n)` exactly once each. -/
theorem matchings_are_perfect (n : ℤ) (hn : 2 ≤ n) (he : 2 ∣ n) :
    ∃ l, disjoint_matchings n = .ok l ∧
      ∀ M ∈ l, (M.length : ℤ) = n / 2 ∧ (∀ p ∈ M, p.1 ≠ p.2) ∧
        (pairEndpoints M).Perm (pyRange 0 n) := by
  refine ⟨_, dm_eq_spec n hn he, ?_⟩
  intro M hM
  obtain ⟨hperm, hvalid⟩ := matching_facts n hn he M hM
  refine ⟨?_, fun p hp => (hvalid p hp).1, hperm⟩
  have hlen := hperm.length_eq
  rw [pairEndpoints_length, pyRange_length] at hlen
  omega

/-- Witness for C3 at `n = 6`. -/
theorem matchings_are_perfect_witness :
    ∃ l, disjoint_matchings 6 = .ok l ∧
      ∀ M ∈ l, (M.length : ℤ) = (6 : ℤ) / 2 ∧ (∀ p ∈ M, p.1 ≠ p.2) ∧
        (pairEndpoints M).Perm (pyRange 0 6) :=
  matchings_are_perfect 6 (by norm_num) (by norm_num)

/-- C2: for every even `n ≥ 2`, the generator yields exactly `n - 1`
matchings. -/
theorem matchings_count (n : ℤ) (hn : 2 ≤ n) (he : 2 ∣ n) :
    ∃ l, disjoint_matchings n = .ok l ∧ (l.length : ℤ) = n - 1 := by
  refine ⟨_, dm_eq_spec n hn he, ?_⟩
  rw [specMatchings_count n hn he]
  omega

/-- Witness for C2 at `n = 12`. -/
theorem matchings_count_witness :
    ∃ l, disjoint_matchings 12 = .ok l ∧ (l.length : ℤ) = 12 - 1 :=
  matchings_count 12 (by norm_num) (by norm_num)

theorem mem_allPairs (n : ℤ) (p : ℤ × ℤ) :
    p ∈ allPairs n ↔ 0 ≤ p.1 ∧ p.1 < p.2 ∧ p.2 < n := by
  rw [allPairs, List.mem_flatMap]
  constructor
  · rintro ⟨b, hb, hp⟩
    rw [List.mem_map] at hp
    obtain ⟨a, ha, rfl⟩ := hp
    rw [mem_pyRange] at hb ha
    exact ⟨ha.1, ha.2, hb.2⟩
  · rintro ⟨h1, h2, h3⟩
    refine ⟨p.2, mem_pyRange.mpr ⟨by omega, h3⟩,
      List.mem_map.mpr ⟨p.1, mem_pyRange.mpr ⟨h1, h2⟩, rfl⟩⟩

theorem allPairs_nodup (n : ℤ) : (allPairs n).Nodup := by
  rw [allPairs, List.nodup_flatMap]
  constructor
  · intro b _
    exact List.Nodup.map_on
      (fun x _ y _ h => (Prod.ext_iff.mp h).1) (pyRange_nodup 0 b)
  · refine List.Pairwise.imp_of_mem ?_ (pyRange_nodup 0 n)
    intro b b' _ _ hne x hx hx'
    rw [List.mem_map] at hx hx'
    obtain ⟨a, _, rfl⟩ := hx
    obtain ⟨a', _, heq⟩ := hx'
    exact hne ((Prod.ext_iff.mp heq).2).symm

theorem sum_range_mul_two (N : ℕ) : (List.range N).sum * 2 = N * (N - 1) := by
  induction N with
  | zero => rfl
  | succ N ih =>
    rw [List.range_succ, List.sum_append]
    simp only [List.sum_cons, List.sum_nil, add_zero]
    cases N with
    | zero => rfl
    | succ K =>
      calc ((List.range (K + 1)).sum + (K + 1)) * 2
          = (List.range (K + 1)).sum * 2 + (K + 1) * 2 := by ring
        _ = (K + 1) * (K + 1 - 1) + (K + 1) * 2 := by rw [ih]
        _ = (K + 1 + 1) * (K + 1 + 1 - 1) := by
            rw [Nat.add_sub_cancel, Nat.add_sub_cancel]
            ring

theorem allPairs_length_mul_two (n : ℤ) (hn : 0 ≤ n) :
    (allPairs n).length * 2 = n.toNat * (n.toNat - 1) := by
  rw [allPairs, List.length_flatMap]
  have h1 : List.map (List.length ∘ fun b => (pyRange 0 b).map (fun a => (a, b)))
      (pyRange 0 n) = (List.range n.toNat).map (fun j => j) := by
    rw [pyRange, sub_zero, List.map_map]
    apply List.map_congr_left
    intro j _
    simp only [Function.comp_apply, List.length_map, pyRange_length]
    omega
  rw [h1, List.map_id']
  exact sum_range_mul_two n.toNat

/-! ## Claim C1: completeness of the factorization -/

/-- C1: for every even `n ≥ 2`, the pairs emitted across the full sequence,
read unordered, are a permutation of the `C(n,2)` unordered pairs of
distinct vertices of `[0, n)` — each pair exactly once, no duplicates and
no omissions. -/
theorem dm_completeness (n : ℤ) (hn : 2 ≤ n) (he : 2 ∣ n) :
    ∃ l, disjoint_matchings n = .ok l ∧
      (l.flatten.map normPair).Perm (allPairs n) := by
  refine ⟨_, dm_eq_spec n hn he, ?_⟩
  have hlenM : ∀ M ∈ specRegimeA n ++ specRegimeB n, M.length = (n / 2).toNat := by
    intro M hM
    have hperm := (matching_facts n hn he M hM).1
    have hl := hperm.length_eq
    rw [pairEndpoints_length, pyRange_length] at hl
    omega
  have hflen : ((specRegimeA n ++ specRegimeB n).flatten).length
      = (n - 1).toNat * (n / 2).toNat := by
    rw [List.length_flatten]
    have hconst : (specRegimeA n ++ specRegimeB n).map List.length
        = List.replicate (specRegimeA n ++ specRegimeB n).length ((n / 2).toNat) := by
      rw [← List.map_const]
      exact List.map_congr_left (fun M hM => hlenM M hM)
    rw [hconst, List.sum_replicate, smul_eq_mul, specMatchings_count n hn he]
  have hAmem : ∀ d : ℤ, 1 ≤ d → d < n → ¬ ((2 : ℤ) ^ specV2 n ∣ d) → ¬ (d = n / 2) →
      specOffsetMatching n d ∈ specRegimeA n := by
    intro d hd1 hdn hk1 hk2
    rw [specRegimeA, List.mem_map]
    refine ⟨d, ?_, rfl⟩
    rw [List.mem_filter, mem_pyRange]
    refine ⟨⟨hd1, hdn⟩, ?_⟩
    rw [Bool.and_eq_true, decide_eq_true_iff, decide_eq_true_iff]
    exact ⟨hk1, hk2⟩
  have hsub : allPairs n ⊆ (specRegimeA n ++ specRegimeB n).flatten.map normPair := by
    intro p hp
    rw [mem_allPairs] at hp
    obtain ⟨h1, h2, h3⟩ := hp
    have hdex : p.1 + (p.2 - p.1) = p.2 := by ring
    rw [List.mem_map]
    by_cases hc : ¬ ((2 : ℤ) ^ specV2 n ∣ p.2 - p.1) ∧ ¬ (p.2 - p.1 = n / 2)
    · have hCe := keep_imp_C_even n (p.2 - p.1) hn he (by omega) hc.1
      have hcov := specOffsetMatching_covers n (p.2 - p.1) p.1 hn (by omega)
        (by omega) hCe h1 (by omega)
      rw [hdex] at hcov
      rcases hcov with hP | hP
      · refine ⟨(p.1, p.2), ?_, ?_⟩
        · exact List.mem_flatten.mpr ⟨specOffsetMatching n (p.2 - p.1),
            List.mem_append_left _ (hAmem (p.2 - p.1) (by omega) (by omega)
              hc.1 hc.2), hP⟩
        · rw [normPair]
          simp only
          rw [min_eq_left (by omega : p.1 ≤ p.2), max_eq_right (by omega : p.1 ≤ p.2)]
      · have hk1' : ¬ ((2 : ℤ) ^ specV2 n ∣ n - (p.2 - p.1)) := by
          intro hcon
          apply hc.1
          have hTn : ((2 : ℤ) ^ specV2 n) ∣ n := by
            rw [specV2_eq_twoFactorsGo n (by omega)]
            exact (twoFactorsGo_spec n (by omega)).1
          have h4 := dvd_sub hTn hcon
          have h5 : n - (n - (p.2 - p.1)) = p.2 - p.1 := by ring
          rwa [h5] at h4
        have hk2' : ¬ (n - (p.2 - p.1) = n / 2) := by
          intro hcon
          exact hc.2 (by omega)
        refine ⟨(p.2, p.1), ?_, ?_⟩
        · exact List.mem_flatten.mpr ⟨specOffsetMatching n (n - (p.2 - p.1)),
            List.mem_append_left _ (hAmem (n - (p.2 - p.1)) (by omega) (by omega)
              hk1' hk2'), hP⟩
        · rw [normPair]
          simp only
          rw [min_eq_right (by omega : p.1 ≤ p.2), max_eq_left (by omega : p.1 ≤ p.2)]
    · rw [not_and_or, not_not, not_not] at hc
      obtain ⟨M, hM, hpM⟩ := regimeB_covers n (p.2 - p.1) p.1 hn he (by omega)
        (by omega) hc h1 (by omega)
      rw [hdex] at hpM
      rcases hpM with hP | hP
      · refine ⟨(p.1, p.2), List.mem_flatten.mpr
          ⟨M, List.mem_append_right _ hM, hP⟩, ?_⟩
        · rw [normPair]
          simp only
          rw [min_eq_left (by omega : p.1 ≤ p.2), max_eq_right (by omega : p.1 ≤ p.2)]
      · refine ⟨(p.2, p.1), List.mem_flatten.mpr ?_, ?_⟩
        · exact ⟨M, List.mem_append_right _ hM, hP⟩
        · rw [normPair]
          simp only
          rw [min_eq_right (by omega : p.1 ≤ p.2), max_eq_left (by omega : p.1 ≤ p.2)]
  refine ((allPairs_nodup n).subperm hsub).perm_of_length_le ?_ |>.symm
  rw [List.length_map, hflen]
  have h2 := allPairs_length_mul_two n (by omega)
  have h3 : (n - 1).toNat * (n / 2).toNat * 2 = n.toNat * (n.toNat - 1) := by
    rw [mul_assoc]
    rw [(by omega : (n / 2).toNat * 2 = n.toNat),
      (by omega : (n - 1).toNat = n.toNat - 1)]
    ring
  omega

/-- Witness for C1 at `n = 6`. -/
theorem dm_completeness_witness :
    ∃ l, disjoint_matchings 6 = .ok l ∧
      (l.flatten.map normPair).Perm (allPairs 6) :=
  dm_completeness 6 (by norm_num) (by norm_num)
